import Mathlib

/-!
Verification of the branch-snapshot assembly pipeline of `multi_codex`
(`multi_codex/core.py`, `multi_codex/prompts/__init__.py`).

The Python functions are shallowly embedded as executable Lean functions.
Strings are manipulated through their underlying character lists; Python
byte strings are `List Nat`; fallible code returns `Except`/`Option`;
external effects (git subprocesses, the filesystem seen by the file
classifier) are explicit oracle records passed as arguments.
-/

set_option maxHeartbeats 2000000
set_option maxRecDepth 8192

/-! ## Generic string helpers (Python semantics) -/

/-- Characters treated as whitespace by Python's `str.strip` family
(ASCII fragment, which is all this code base produces). -/
def isPySpace (c : Char) : Bool :=
  c = ' ' || c = '\t' || c = '\n' || c = '\r' || c = '\x0b' || c = '\x0c'

/-- Python `str.rstrip()` on the character list. -/
def rstripChars (l : List Char) : List Char :=
  ((l.reverse.dropWhile isPySpace)).reverse

/-- Python `str.strip()` on the character list. -/
def stripChars (l : List Char) : List Char :=
  rstripChars (l.dropWhile isPySpace)

/-- Python `str.rstrip()`. -/
def pyRstrip (s : String) : String := String.mk (rstripChars s.data)

/-- Python `str.strip()`. -/
def pyStrip (s : String) : String := String.mk (stripChars s.data)

/-- Python `str.lower()` (ASCII fragment). -/
def lowerStr (s : String) : String := String.mk (s.data.map Char.toLower)

/-- `"sep".join(parts)` from Python, on character lists. -/
def joinSep (sep : List Char) : List (List Char) → List Char
  | [] => []
  | [x] => x
  | x :: y :: rest => x ++ sep ++ joinSep sep (y :: rest)

/-- `"sep".join(parts)` from Python, on strings. -/
def pyJoin (sep : String) (parts : List String) : String :=
  String.mk (joinSep sep.data (parts.map String.data))

/-- Number of (possibly overlapping) occurrences of `p` in `s`,
counted at every suffix position. -/
def countOccurs (p : List Char) : List Char → Nat
  | [] => if p = [] then 1 else 0
  | c :: rest => (if p <+: (c :: rest) then 1 else 0) + countOccurs p rest

theorem rstripChars_prefix (l : List Char) : rstripChars l <+: l := by
  unfold rstripChars
  conv_rhs => rw [← l.reverse_reverse]
  rcases (l.reverse.dropWhile_suffix isPySpace) with ⟨t, ht⟩
  exact ⟨t.reverse, by rw [← List.reverse_append, ht]⟩

theorem not_prefix_cons_of_not_mem {p : List Char} {c : Char}
    (hc : c ∉ p) (hp : p ≠ []) (b : List Char) : ¬ p <+: (c :: b) := by
  intro h
  cases p with
  | nil => exact hp rfl
  | cons y p' =>
      rw [List.cons_prefix_cons] at h
      exact hc (h.1 ▸ List.mem_cons_self y p')

theorem prefix_of_append_cons_not_mem {c : Char} :
    ∀ {a : List Char} {p : List Char} (b : List Char), c ∉ p →
      p <+: (a ++ c :: b) → p <+: a := by
  intro a
  induction a with
  | nil =>
      intro p b hc h
      cases p with
      | nil => exact List.nil_prefix
      | cons y p' =>
          rw [List.nil_append, List.cons_prefix_cons] at h
          exact absurd (h.1 ▸ List.mem_cons_self y p') hc
  | cons x a' ih =>
      intro p b hc h
      cases p with
      | nil => exact List.nil_prefix
      | cons y p' =>
          rw [List.cons_append, List.cons_prefix_cons] at h
          obtain ⟨rfl, h2⟩ := h
          have hc' : c ∉ p' := fun hm => hc (List.mem_cons_of_mem _ hm)
          exact List.cons_prefix_cons.mpr ⟨rfl, ih b hc' h2⟩

/-- Counting occurrences splits across a separator character
that does not occur in the pattern. -/
theorem countOccurs_append_cons {p : List Char} {c : Char}
    (hc : c ∉ p) (hp : p ≠ []) :
    ∀ (a b : List Char), countOccurs p (a ++ c :: b) = countOccurs p a + countOccurs p b := by
  intro a
  induction a with
  | nil =>
      intro b
      have hpre := not_prefix_cons_of_not_mem hc hp b
      simp [countOccurs, hpre, hp]
  | cons x a' ih =>
      intro b
      have hiff : (p <+: x :: (a' ++ c :: b)) ↔ (p <+: x :: a') := by
        constructor
        · intro h
          exact prefix_of_append_cons_not_mem (a := x :: a') b hc h
        · intro h
          have : (x :: a') ++ (c :: b) = x :: (a' ++ c :: b) := by simp
          exact this ▸ h.trans (List.prefix_append (x :: a') (c :: b))
      show (if p <+: x :: (a' ++ c :: b) then 1 else 0) + countOccurs p (a' ++ c :: b) = _
      rw [if_congr hiff rfl rfl, ih b]
      show _ = (if p <+: x :: a' then 1 else 0) + countOccurs p a' + countOccurs p b
      omega

/-- Occurrence counting is monotone under appending on the right. -/
theorem countOccurs_le_append (p a b : List Char) :
    countOccurs p a ≤ countOccurs p (a ++ b) := by
  induction a with
  | nil =>
      by_cases hp : p = []
      · subst hp
        induction b with
        | nil => simp [countOccurs]
        | cons y ys ihb =>
            simp only [countOccurs, List.nil_append] at ihb ⊢
            have : ([] : List Char) <+: (y :: ys) := List.nil_prefix
            simp [this] at ihb ⊢
      · simp [countOccurs, hp]
  | cons x a' ih =>
      show (if p <+: x :: a' then 1 else 0) + countOccurs p a' ≤
        (if p <+: x :: (a' ++ b) then 1 else 0) + countOccurs p (a' ++ b)
      have hmono : (if p <+: x :: a' then 1 else 0) ≤
          (if p <+: x :: (a' ++ b) then 1 else 0) := by
        by_cases h : p <+: x :: a'
        · have : (x :: a') ++ b = x :: (a' ++ b) := by simp
          have h2 : p <+: x :: (a' ++ b) := this ▸ h.trans (List.prefix_append (x :: a') b)
          simp [h, h2]
        · simp [h]
      omega

/-- A member of a Python `sep.join` is an infix of the join. -/
theorem infix_joinSep (sep : List Char) :
    ∀ (parts : List (List Char)) (x : List Char), x ∈ parts → x <:+: joinSep sep parts := by
  intro parts
  induction parts with
  | nil => intro x hx; cases hx
  | cons y ys ih =>
      intro x hx
      rcases List.mem_cons.mp hx with rfl | hmem
      · cases ys with
        | nil => exact List.infix_refl x
        | cons z zs =>
            exact ⟨[], sep ++ joinSep sep (z :: zs), by simp [joinSep]⟩
      · cases ys with
        | nil => cases hmem
        | cons z zs =>
            have htail := ih x hmem
            exact htail.trans ⟨y ++ sep, [], by simp [joinSep]⟩

/-! ## `slugify_branch_name` (core.py lines 271-280)

Python's `str.replace(a, b)` for one-character `a` and `b` maps each
occurrence of the character; we embed each of the five chained calls
as a character map. -/

/-- One-character `str.replace(a, "_")` on the character list. -/
def replaceChar (a : Char) (l : List Char) : List Char :=
  l.map (fun c => if c = a then '_' else c)

/-- `slugify_branch_name` from `core.py`: five chained single-character
replacements, no case folding. -/
def slugify_branch_name (branch_name : String) : String :=
  String.mk
    (replaceChar ':' (replaceChar '\\' (replaceChar '#' (replaceChar ' '
      (replaceChar '/' branch_name.data)))))

/-- Is this one of the five separator characters replaced by the slugifier? -/
def isSlugSeparator (c : Char) : Bool :=
  c = '/' || c = ' ' || c = '#' || c = '\\' || c = ':'

/-- C1 counterexample: the slug of `"Feature/X"` keeps its uppercase
letters, so the output of `slugify_branch_name` is not case-folded. -/
theorem slugify_branch_name_keeps_uppercase :
    slugify_branch_name "Feature/X" = "Feature_X" ∧
      'F' ∈ (slugify_branch_name "Feature/X").data ∧ 'F'.isUpper = true := by
  refine ⟨rfl, by decide, rfl⟩

/-- C1 (amended): every separator character (`/`, space, `#`, `\`, `:`)
is replaced by an underscore, so the returned slug contains none of them;
letter case is preserved, not folded. -/
theorem slugify_branch_name_separator_free (branch_name : String) :
    (slugify_branch_name branch_name).data.filter isSlugSeparator = [] := by
  show (replaceChar ':' (replaceChar '\\' (replaceChar '#' (replaceChar ' '
      (replaceChar '/' branch_name.data))))).filter isSlugSeparator = []
  rw [List.filter_eq_nil_iff]
  intro a ha
  simp only [replaceChar, List.mem_map] at ha
  obtain ⟨c4, ⟨c3, ⟨c2, ⟨c1, ⟨c0, _, rfl⟩, rfl⟩, rfl⟩, rfl⟩, rfl⟩ := ha
  simp only [isSlugSeparator]
  split_ifs <;> simp_all

/-! ## The directory tree (core.py lines 241-268)

`build_tree_from_paths` builds a Python dict-of-dicts (`None` marks a
file leaf) and renders it.  A Python dict is embedded as an association
list in insertion order; `insert_path`'s mutation of a shared dict is
threaded functionally.  Subscripting / calling `setdefault` on a `None`
leaf raises in Python, embedded as `Except.error`. -/

inductive Node where
  | leaf : Node
  | dir : List (String × Node) → Node

/-- `item[1] is None` from the sort key: is the entry a file leaf? -/
def isLeafB : Node → Bool
  | .leaf => true
  | .dir _ => false

/-- Dict lookup (insertion-ordered association list). -/
def lookupEntry (k : String) : List (String × Node) → Option Node
  | [] => none
  | (k', v) :: rest => if k' = k then some v else lookupEntry k rest

/-- Dict assignment: replaces in place if the key exists, else appends. -/
def setEntry (k : String) (v : Node) : List (String × Node) → List (String × Node)
  | [] => [(k, v)]
  | (k', v') :: rest => if k' = k then (k, v) :: rest else (k', v') :: setEntry k v rest

/-- `insert_path` from `build_tree_from_paths`, on the split segments:
walk `parts[:-1]` with `setdefault(part, {})`, then assign
`node[parts[-1]] = None`.  Reaching a `None` leaf mid-walk raises in
Python (`TypeError`/`AttributeError`), embedded as `Except.error`. -/
def insertParts : List (String × Node) → List String → Except Unit (List (String × Node))
  | _, [] => .error ()
  | es, [last] => .ok (setEntry last Node.leaf es)
  | es, part :: next :: rest =>
      match lookupEntry part es with
      | none =>
          match insertParts [] (next :: rest) with
          | .ok sub => .ok (es ++ [(part, Node.dir sub)])
          | .error e => .error e
      | some (Node.dir sub) =>
          match insertParts sub (next :: rest) with
          | .ok sub' => .ok (setEntry part (Node.dir sub') es)
          | .error e => .error e
      | some Node.leaf => .error ()

/-- The `for path in paths: insert_path(tree, path)` loop, on split paths. -/
def buildTreeCore (paths : List (List String)) : Except Unit (List (String × Node)) :=
  paths.foldlM insertParts []

/-- Lexicographic `≤` on character lists: Python string comparison
(by code point, a strict prefix is smaller). -/
def charsLe : List Char → List Char → Bool
  | [], _ => true
  | _ :: _, [] => false
  | a :: as, b :: bs => if a = b then charsLe as bs else decide (a.toNat < b.toNat)

/-- `False < True`: Python bool comparison inside the sort key tuple. -/
def boolLt (a b : Bool) : Bool := !a && b

/-- Lexicographic `≤` on the sort key `(item[1] is None, item[0].lower())`. -/
def keyLe : Bool × List Char → Bool × List Char → Bool
  | (b₁, s₁), (b₂, s₂) => if b₁ = b₂ then charsLe s₁ s₂ else boolLt b₁ b₂

/-- The sort key of one dict entry. -/
def entryKey (e : String × Node) : Bool × List Char :=
  (isLeafB e.2, e.1.data.map Char.toLower)

/-- The sort order used by `render_tree`'s `sorted(...)`. -/
def entryLe (a b : String × Node) : Prop := keyLe (entryKey a) (entryKey b) = true

instance : DecidableRel entryLe := fun a b => by
  unfold entryLe; infer_instance

/-- `sorted(tree.items(), key=...)`: Python's sort is stable, as is
insertion sort with a total preorder. -/
def sortEntries (es : List (String × Node)) : List (String × Node) :=
  List.insertionSort entryLe es

theorem perm_sizeOf_eq {α : Type} [SizeOf α] {l₁ l₂ : List α} (h : l₁.Perm l₂) :
    sizeOf l₁ = sizeOf l₂ := by
  induction h with
  | nil => rfl
  | cons x _ ih => simp [ih]
  | swap x y l => simp; omega
  | trans _ _ ih₁ ih₂ => exact ih₁.trans ih₂

theorem sizeOf_sortEntries (es : List (String × Node)) :
    sizeOf (sortEntries es) = sizeOf es :=
  perm_sizeOf_eq (List.perm_insertionSort entryLe es)

/-- The rendering loop of `render_tree`, applied to an already sorted
entry list; child dicts are sorted at each recursive call, mirroring
the recursive `render_tree(child, prefix + extension)`. -/
def renderSorted (pre : String) : List (String × Node) → List String
  | [] => []
  | (name, Node.leaf) :: rest =>
      if rest.isEmpty then [pre ++ "└── " ++ name]
      else (pre ++ "├── " ++ name) :: renderSorted pre rest
  | (name, Node.dir sub) :: rest =>
      if rest.isEmpty then
        (pre ++ "└── " ++ name) :: renderSorted (pre ++ "    ") (sortEntries sub)
      else
        (pre ++ "├── " ++ name) ::
          (renderSorted (pre ++ "│   ") (sortEntries sub) ++ renderSorted pre rest)
termination_by l => sizeOf l
decreasing_by
  all_goals simp_wf
  all_goals try simp [sizeOf_sortEntries]
  all_goals omega

/-- `render_tree(tree, prefix)` from `core.py`. -/
def render_tree (tree : List (String × Node)) (pre : String) : List String :=
  renderSorted pre (sortEntries tree)

/-- Python `path.split(sep)` for a one-character separator (`os.sep`
is `/`): accumulate the current field, break on the separator. -/
def splitOnCharAux (c : Char) : List Char → List Char → List (List Char)
  | acc, [] => [acc.reverse]
  | acc, x :: xs =>
      if x = c then acc.reverse :: splitOnCharAux c [] xs
      else splitOnCharAux c (x :: acc) xs

/-- `path.split(os.sep)` from `insert_path`. -/
def splitPath (p : String) : List String :=
  (splitOnCharAux '/' [] p.data).map String.mk

/-- `build_tree_from_paths` from `core.py`: build the nested dict from
each `path.split(os.sep)` and join `[repo_name] + render_tree(tree)`
with newlines; a conflicting insertion raises (`Except.error`). -/
def build_tree_from_paths (repo_name : String) (paths : List String) : Except Unit String :=
  match buildTreeCore (paths.map splitPath) with
  | .error e => .error e
  | .ok tree => .ok (pyJoin "\n" (repo_name :: render_tree tree ""))

/-! ## Conflicting insertions (C9): order-dependent policy -/

/-- The node reached by following the segments of a nonempty path. -/
def subtreeAt (es : List (String × Node)) : List String → Option Node
  | [] => none
  | [k] => lookupEntry k es
  | k :: next :: rest =>
      match lookupEntry k es with
      | some (Node.dir sub) => subtreeAt sub (next :: rest)
      | _ => none

/-- The single-path tree produced by inserting one path into `{}`. -/
def chainOf : List String → List (String × Node)
  | [] => []
  | [k] => [(k, Node.leaf)]
  | k :: next :: rest => [(k, Node.dir (chainOf (next :: rest)))]

theorem lookup_setEntry_same (k : String) (v : Node) :
    ∀ es, lookupEntry k (setEntry k v es) = some v := by
  intro es
  induction es with
  | nil => simp [setEntry, lookupEntry]
  | cons e rest ih =>
      obtain ⟨k', v'⟩ := e
      by_cases h : k' = k
      · subst h
        simp [setEntry, lookupEntry]
      · simp [setEntry, lookupEntry, h, ih]

theorem lookup_setEntry_other {k₀ k : String} (h : k ≠ k₀) (v : Node) :
    ∀ es, lookupEntry k₀ (setEntry k v es) = lookupEntry k₀ es := by
  intro es
  induction es with
  | nil => simp [setEntry, lookupEntry, h]
  | cons e rest ih =>
      obtain ⟨k', v'⟩ := e
      by_cases hk : k' = k
      · subst hk
        simp [setEntry, lookupEntry, h]
      · simp [setEntry, lookupEntry, hk, ih]

theorem lookup_append_single_same {k : String} {es : List (String × Node)}
    (h : lookupEntry k es = none) (v : Node) :
    lookupEntry k (es ++ [(k, v)]) = some v := by
  induction es with
  | nil => simp [lookupEntry]
  | cons e rest ih =>
      obtain ⟨k', v'⟩ := e
      by_cases hk : k' = k
      · simp [lookupEntry, hk] at h
      · simp only [lookupEntry, hk, if_false, List.cons_append] at h ⊢
        simp [lookupEntry, hk] at h ⊢
        exact ih h

theorem lookup_append_single_other {k₀ k : String} (h : k ≠ k₀) (v : Node) :
    ∀ es, lookupEntry k₀ (es ++ [(k, v)]) = lookupEntry k₀ es := by
  intro es
  induction es with
  | nil => simp [lookupEntry, h]
  | cons e rest ih =>
      obtain ⟨k', v'⟩ := e
      by_cases hk : k' = k₀
      · simp [lookupEntry, hk]
      · simp [lookupEntry, hk, ih]

theorem insertParts_nil_arg (es : List (String × Node)) :
    insertParts es [] = .error () := rfl

theorem insertParts_ok_ne_nil {es es' : List (String × Node)} {T : List String}
    (h : insertParts es T = .ok es') : T ≠ [] := by
  intro hT
  subst hT
  simp [insertParts] at h

/-- After a successful `insert_path`, the inserted path ends in a leaf
(overwriting whatever was there before). -/
theorem subtreeAt_insertParts_self :
    ∀ (parts : List String) (es es' : List (String × Node)),
      insertParts es parts = .ok es' → subtreeAt es' parts = some Node.leaf := by
  intro parts
  induction parts with
  | nil => intro es es' h; simp [insertParts] at h
  | cons k tail ih =>
      intro es es' h
      cases tail with
      | nil =>
          simp only [insertParts, Except.ok.injEq] at h
          subst h
          simp [subtreeAt, lookup_setEntry_same]
      | cons next rest =>
          simp only [insertParts] at h
          split at h
          · next hl =>
              split at h
              · next sub hrec =>
                  cases h
                  simp [subtreeAt, lookup_append_single_same hl, ih _ _ hrec]
              · exact Except.noConfusion h
          · next sub hl =>
              split at h
              · next sub' hrec =>
                  cases h
                  simp [subtreeAt, lookup_setEntry_same, ih _ _ hrec]
              · exact Except.noConfusion h
          · exact Except.noConfusion h

/-- Extending a path that currently ends in a leaf raises (the `None`
value is subscripted / `setdefault` is called on it). -/
theorem insertParts_error_of_leaf_above :
    ∀ (R : List String) (S : List String) (es : List (String × Node)),
      R ≠ [] → S ≠ [] → subtreeAt es R = some Node.leaf →
      insertParts es (R ++ S) = .error () := by
  intro R
  induction R with
  | nil => intro S es hR; exact absurd rfl hR
  | cons k tail ih =>
      intro S es _ hS hleaf
      cases tail with
      | nil =>
          cases S with
          | nil => exact absurd rfl hS
          | cons s₀ S' =>
              simp only [subtreeAt] at hleaf
              simp [insertParts, hleaf]
      | cons next rest =>
          simp only [subtreeAt] at hleaf
          split at hleaf
          · next sub hl =>
              have hrec := ih S sub (by simp) hS hleaf
              have harr : (k :: next :: rest) ++ S = k :: next :: (rest ++ S) := by simp
              rw [harr]
              simp only [insertParts, hl]
              have harr2 : (next :: rest) ++ S = next :: (rest ++ S) := by simp
              rw [harr2] at hrec
              rw [hrec]
          · next hne => exact Option.noConfusion hleaf

/-- Inserting a path into the empty dict builds a single chain. -/
theorem insertParts_nil_eq_chain :
    ∀ (parts : List String), parts ≠ [] → insertParts [] parts = .ok (chainOf parts) := by
  intro parts
  induction parts with
  | nil => intro h; exact absurd rfl h
  | cons k tail ih =>
      intro _
      cases tail with
      | nil => simp [insertParts, chainOf, setEntry]
      | cons next rest =>
          have hrec := ih (by simp)
          simp [insertParts, lookupEntry, hrec, chainOf]

theorem lookup_single_other {k₀ k : String} (h : k ≠ k₀) (v : Node) :
    lookupEntry k₀ [(k, v)] = none := by
  simp [lookupEntry, h]

/-- A single-path chain contains nothing along a path that diverges
from it. -/
theorem subtreeAt_chainOf_divergent :
    ∀ (common : List String) (ka kb : String) (ra rb : List String), ka ≠ kb →
      subtreeAt (chainOf (common ++ kb :: rb)) (common ++ ka :: ra) = none := by
  intro common
  induction common with
  | nil =>
      intro ka kb ra rb hne
      have hl : lookupEntry ka (chainOf (kb :: rb)) = none := by
        cases rb with
        | nil => exact lookup_single_other (fun h => hne h.symm) _
        | cons b rb' => exact lookup_single_other (fun h => hne h.symm) _
      cases ra with
      | nil => simpa [subtreeAt] using hl
      | cons r₀ ra' => simp [subtreeAt, hl]
  | cons c common' ih =>
      intro ka kb ra rb hne
      have hchain : chainOf (c :: (common' ++ kb :: rb)) =
          [(c, Node.dir (chainOf (common' ++ kb :: rb)))] := by
        cases common' with
        | nil => simp [chainOf]
        | cons d common'' => simp [chainOf]
      have hpath : (c :: common') ++ ka :: ra = c :: (common' ++ ka :: ra) := by simp
      have hpath2 : (c :: common') ++ kb :: rb = c :: (common' ++ kb :: rb) := by simp
      rw [hpath, hpath2, hchain]
      have hlook : lookupEntry c [(c, Node.dir (chainOf (common' ++ kb :: rb)))] =
          some (Node.dir (chainOf (common' ++ kb :: rb))) := by
        simp [lookupEntry]
      cases hcp : common' ++ ka :: ra with
      | nil => exact absurd hcp (by simp)
      | cons x xs =>
          simp only [subtreeAt, hlook]
          rw [← hcp]
          exact ih ka kb ra rb hne

/-- A successful insertion only touches the entry of its first segment. -/
theorem lookup_insertParts_other :
    ∀ (parts : List String) (es es' : List (String × Node)) (k₀ : String),
      insertParts es parts = .ok es' → parts.head? ≠ some k₀ →
      lookupEntry k₀ es' = lookupEntry k₀ es := by
  intro parts
  induction parts with
  | nil => intro es es' k₀ h; simp [insertParts] at h
  | cons k tail ih =>
      intro es es' k₀ h hhead
      have hk : k ≠ k₀ := by
        intro hkk
        exact hhead (by simp [hkk])
      cases tail with
      | nil =>
          simp only [insertParts, Except.ok.injEq] at h
          subst h
          exact lookup_setEntry_other hk _ _
      | cons next rest =>
          simp only [insertParts] at h
          split at h
          · next hl =>
              split at h
              · next sub hrec =>
                  cases h
                  exact lookup_append_single_other hk _ _
              · exact Except.noConfusion h
          · next sub hl =>
              split at h
              · next sub' hrec =>
                  cases h
                  exact lookup_setEntry_other hk _ _
              · exact Except.noConfusion h
          · exact Except.noConfusion h

/-- A successful insertion of a path that diverges from `R` (first
difference at a common position) leaves the node at `R` unchanged. -/
theorem subtreeAt_insertParts_divergent :
    ∀ (common : List String) (ka kb : String) (ra rb : List String)
      (es es' : List (String × Node)), ka ≠ kb →
      insertParts es (common ++ kb :: rb) = .ok es' →
      subtreeAt es' (common ++ ka :: ra) = subtreeAt es (common ++ ka :: ra) := by
  intro common
  induction common with
  | nil =>
      intro ka kb ra rb es es' hne h
      have hl : lookupEntry ka es' = lookupEntry ka es := by
        refine lookup_insertParts_other _ _ _ _ h ?_
        simp only [List.nil_append, List.head?_cons]
        intro hcon
        exact hne (by injection hcon with hh; exact hh.symm)
      cases ra with
      | nil => simpa [subtreeAt] using hl
      | cons r₀ ra' => simp [subtreeAt, hl]
  | cons c common' ih =>
      intro ka kb ra rb es es' hne h
      have hpathb : (c :: common') ++ kb :: rb = c :: (common' ++ kb :: rb) := by simp
      rw [hpathb] at h
      have hpatha : (c :: common') ++ ka :: ra = c :: (common' ++ ka :: ra) := by simp
      rw [hpatha]
      cases hcb : common' ++ kb :: rb with
      | nil => exact absurd hcb (by simp)
      | cons y ys =>
          rw [hcb] at h
          simp only [insertParts] at h
          split at h
          · next hl =>
              split at h
              · next sub hrec =>
                  cases h
                  have hlook' : lookupEntry c (es ++ [(c, Node.dir sub)]) =
                      some (Node.dir sub) := lookup_append_single_same hl _
                  have hchain : sub = chainOf (y :: ys) := by
                    rw [insertParts_nil_eq_chain (y :: ys) (by simp)] at hrec
                    injection hrec with hh
                    exact hh.symm
                  cases hca : common' ++ ka :: ra with
                  | nil => exact absurd hca (by simp)
                  | cons x xs =>
                      simp only [subtreeAt, hlook', hl]
                      rw [← hca, hchain, ← hcb]
                      exact subtreeAt_chainOf_divergent common' ka kb ra rb hne
              · exact Except.noConfusion h
          · next sub hl =>
              split at h
              · next sub' hrec =>
                  cases h
                  have hlook' : lookupEntry c (setEntry c (Node.dir sub') es) =
                      some (Node.dir sub') := lookup_setEntry_same _ _ _
                  cases hca : common' ++ ka :: ra with
                  | nil => exact absurd hca (by simp)
                  | cons x xs =>
                      simp only [subtreeAt, hlook', hl]
                      rw [← hca]
                      rw [← hcb] at hrec
                      exact ih ka kb ra rb sub sub' hne hrec
              · exact Except.noConfusion h
          · exact Except.noConfusion h

/-- Two paths are comparable by prefix or diverge at their first
difference. -/
theorem prefix_or_diverge :
    ∀ (R T : List String), R <+: T ∨ T <+: R ∨
      ∃ common ka kb ra rb, ka ≠ kb ∧ R = common ++ ka :: ra ∧ T = common ++ kb :: rb := by
  intro R
  induction R with
  | nil => intro T; exact Or.inl List.nil_prefix
  | cons a R' ih =>
      intro T
      cases T with
      | nil => exact Or.inr (Or.inl List.nil_prefix)
      | cons b T' =>
          by_cases hab : a = b
          · subst hab
            rcases ih T' with h | h | ⟨common, ka, kb, ra, rb, hne, hR, hT⟩
            · exact Or.inl (List.cons_prefix_cons.mpr ⟨rfl, h⟩)
            · exact Or.inr (Or.inl (List.cons_prefix_cons.mpr ⟨rfl, h⟩))
            · exact Or.inr (Or.inr ⟨a :: common, ka, kb, ra, rb, hne, by simp [hR], by simp [hT]⟩)
          · exact Or.inr (Or.inr ⟨[], a, b, R', T', hab, by simp, by simp⟩)

/-- The "some strict prefix of `P` ends in a leaf" invariant survives
any successful insertion. -/
theorem leaf_prefix_invariant_step (P : List String)
    {es es' : List (String × Node)} {T : List String}
    (hInv : ∃ R, R ≠ [] ∧ R <+: P ∧ subtreeAt es R = some Node.leaf)
    (hok : insertParts es T = .ok es') :
    ∃ R, R ≠ [] ∧ R <+: P ∧ subtreeAt es' R = some Node.leaf := by
  obtain ⟨R, hR, hRP, hleaf⟩ := hInv
  rcases prefix_or_diverge R T with h | h | ⟨common, ka, kb, ra, rb, hne, hReq, hTeq⟩
  · obtain ⟨S', hS'⟩ := h
    cases hS'eq : S' with
    | nil =>
        subst hS'eq
        simp only [List.append_nil] at hS'
        subst hS'
        exact ⟨R, hR, hRP, subtreeAt_insertParts_self R es es' hok⟩
    | cons s₀ S'' =>
        exfalso
        rw [hS'eq] at hS'
        rw [← hS'] at hok
        rw [insertParts_error_of_leaf_above R (s₀ :: S'') es hR (by simp) hleaf] at hok
        exact Except.noConfusion hok
  · have hT : T ≠ [] := insertParts_ok_ne_nil hok
    exact ⟨T, hT, h.trans hRP, subtreeAt_insertParts_self T es es' hok⟩
  · subst hReq
    subst hTeq
    refine ⟨common ++ ka :: ra, hR, hRP, ?_⟩
    rw [subtreeAt_insertParts_divergent common ka kb ra rb es es' hne hok]
    exact hleaf

theorem foldlM_insert_cons_ok {es es' : List (String × Node)} {p : List String}
    (h : insertParts es p = .ok es') (l : List (List String)) :
    List.foldlM insertParts es (p :: l) = List.foldlM insertParts es' l := by
  rw [List.foldlM_cons, h]
  rfl

theorem foldlM_insert_cons_error {es : List (String × Node)} {p : List String} {e : Unit}
    (h : insertParts es p = .error e) (l : List (List String)) :
    List.foldlM insertParts es (p :: l) = .error e := by
  rw [List.foldlM_cons, h]
  rfl

theorem foldlM_insert_append_ok :
    ∀ {l₁ : List (List String)} {es es' : List (String × Node)},
      List.foldlM insertParts es l₁ = .ok es' → ∀ (l₂ : List (List String)),
      List.foldlM insertParts es (l₁ ++ l₂) = List.foldlM insertParts es' l₂ := by
  intro l₁
  induction l₁ with
  | nil =>
      intro es es' h l₂
      simp only [List.foldlM_nil] at h
      cases h
      simp
  | cons p l₁' ih =>
      intro es es' h l₂
      cases hp : insertParts es p with
      | ok es₀ =>
          rw [foldlM_insert_cons_ok hp] at h
          rw [List.cons_append, foldlM_insert_cons_ok hp]
          exact ih h l₂
      | error e =>
          rw [foldlM_insert_cons_error hp] at h
          exact Except.noConfusion h

theorem foldlM_insert_append_error :
    ∀ {l₁ : List (List String)} {es : List (String × Node)} {e : Unit},
      List.foldlM insertParts es l₁ = .error e → ∀ (l₂ : List (List String)),
      List.foldlM insertParts es (l₁ ++ l₂) = .error e := by
  intro l₁
  induction l₁ with
  | nil =>
      intro es e h l₂
      simp only [List.foldlM_nil] at h
      exact Except.noConfusion h
  | cons p l₁' ih =>
      intro es e h l₂
      cases hp : insertParts es p with
      | ok es₀ =>
          rw [foldlM_insert_cons_ok hp] at h
          rw [List.cons_append, foldlM_insert_cons_ok hp]
          exact ih h l₂
      | error e' =>
          rw [foldlM_insert_cons_error hp] at h
          cases h
          rw [List.cons_append, foldlM_insert_cons_error hp]

theorem foldlM_preserves_leaf_prefix (P : List String) :
    ∀ (l : List (List String)) (es es₂ : List (String × Node)),
      (∃ R, R ≠ [] ∧ R <+: P ∧ subtreeAt es R = some Node.leaf) →
      List.foldlM insertParts es l = .ok es₂ →
      ∃ R, R ≠ [] ∧ R <+: P ∧ subtreeAt es₂ R = some Node.leaf := by
  intro l
  induction l with
  | nil =>
      intro es es₂ hInv h
      simp only [List.foldlM_nil] at h
      cases h
      exact hInv
  | cons p l' ih =>
      intro es es₂ hInv h
      cases hp : insertParts es p with
      | ok es' =>
          rw [foldlM_insert_cons_ok hp] at h
          exact ih es' es₂ (leaf_prefix_invariant_step P hInv hp) h
      | error e =>
          rw [foldlM_insert_cons_error hp] at h
          exact Except.noConfusion h

theorem buildTreeCore_conflict_error (P S : List String) (l₁ l₂ l₃ : List (List String))
    (hP : P ≠ []) (hS : S ≠ []) :
    buildTreeCore (l₁ ++ (P :: (l₂ ++ ((P ++ S) :: l₃)))) = .error () := by
  unfold buildTreeCore
  cases h₁ : List.foldlM insertParts [] l₁ with
  | error e => cases e; rw [foldlM_insert_append_error h₁]
  | ok es₀ =>
      rw [foldlM_insert_append_ok h₁]
      cases h₂ : insertParts es₀ P with
      | error e => cases e; rw [foldlM_insert_cons_error h₂]
      | ok es₁ =>
          rw [foldlM_insert_cons_ok h₂]
          have hInv₁ : ∃ R, R ≠ [] ∧ R <+: P ∧ subtreeAt es₁ R = some Node.leaf :=
            ⟨P, hP, List.prefix_refl P, subtreeAt_insertParts_self P es₀ es₁ h₂⟩
          cases h₃ : List.foldlM insertParts es₁ l₂ with
          | error e => cases e; rw [foldlM_insert_append_error h₃]
          | ok es₂ =>
              rw [foldlM_insert_append_ok h₃]
              obtain ⟨R, hR, hRP, hleaf⟩ := foldlM_preserves_leaf_prefix P l₂ es₁ es₂ hInv₁ h₃
              obtain ⟨S₀, hS₀⟩ := hRP
              have hPS : P ++ S = R ++ (S₀ ++ S) := by rw [← hS₀, List.append_assoc]
              have hS₀S : S₀ ++ S ≠ [] := fun hcon => hS (List.append_eq_nil.mp hcon).2
              have herr : insertParts es₂ (P ++ S) = .error () := by
                rw [hPS]
                exact insertParts_error_of_leaf_above R (S₀ ++ S) es₂ hR hS₀S hleaf
              rw [foldlM_insert_cons_error herr]

theorem insertParts_over_dir :
    ∀ (P : List String) (es cs : List (String × Node)),
      subtreeAt es P = some (Node.dir cs) →
      ∃ es', insertParts es P = .ok es' ∧ subtreeAt es' P = some Node.leaf := by
  intro P
  induction P with
  | nil => intro es cs h; simp [subtreeAt] at h
  | cons k tail ih =>
      intro es cs h
      cases tail with
      | nil =>
          refine ⟨setEntry k Node.leaf es, by simp [insertParts], ?_⟩
          simp [subtreeAt, lookup_setEntry_same]
      | cons next rest =>
          simp only [subtreeAt] at h
          split at h
          · next sub hl =>
              obtain ⟨sub', hins, hleaf⟩ := ih sub cs h
              refine ⟨setEntry k (Node.dir sub') es, ?_, ?_⟩
              · simp [insertParts, hl, hins]
              · simp [subtreeAt, lookup_setEntry_same, hleaf]
          · next => exact Option.noConfusion h

theorem insertParts_chain_overwrite :
    ∀ (P S : List String), P ≠ [] → S ≠ [] →
      insertParts (chainOf (P ++ S)) P = .ok (chainOf P) := by
  intro P
  induction P with
  | nil => intro S h; exact absurd rfl h
  | cons k tail ih =>
      intro S _ hS
      cases tail with
      | nil =>
          cases S with
          | nil => exact absurd rfl hS
          | cons s₀ S' => simp [chainOf, insertParts, setEntry]
      | cons next rest =>
          have harr : (k :: next :: rest) ++ S = k :: next :: (rest ++ S) := by simp
          rw [harr]
          have hrec : insertParts (chainOf (next :: (rest ++ S))) (next :: rest) =
              .ok (chainOf (next :: rest)) := by
            have harr2 : next :: (rest ++ S) = (next :: rest) ++ S := by simp
            rw [harr2]
            exact ih S (by simp) hS
          simp [chainOf, insertParts, lookupEntry, hrec, setEntry]

theorem buildTreeCore_overwrite_pair (P S : List String) (hP : P ≠ []) (hS : S ≠ []) :
    buildTreeCore [P ++ S, P] = buildTreeCore [P] := by
  unfold buildTreeCore
  have hPS : P ++ S ≠ [] := fun hcon => hP (List.append_eq_nil.mp hcon).1
  rw [foldlM_insert_cons_ok (insertParts_nil_eq_chain (P ++ S) hPS),
    foldlM_insert_cons_ok (insertParts_chain_overwrite P S hP hS),
    foldlM_insert_cons_ok (insertParts_nil_eq_chain P hP)]

/-- C9: the tree builder is not total on conflicting inputs and the
conflict policy is order dependent.  If a path `P` is inserted before a
strict extension `P ++ S` (whatever other paths surround the pair), the
build raises — the Python `TypeError` from subscripting the `None` leaf,
embedded as `Except.error`.  If the extension comes first, the later
insertion of `P` succeeds and silently overwrites the directory node at
`P` with a leaf, dropping its children: on the two-element list the
result is the same as if `P ++ S` had never been inserted. -/
theorem build_tree_conflict_policy_order_dependent
    (P S : List String) (l₁ l₂ l₃ : List (List String)) (hP : P ≠ []) (hS : S ≠ []) :
    buildTreeCore (l₁ ++ (P :: (l₂ ++ ((P ++ S) :: l₃)))) = .error () ∧
    (∀ es cs, subtreeAt es P = some (Node.dir cs) →
      ∃ es', insertParts es P = .ok es' ∧ subtreeAt es' P = some Node.leaf) ∧
    buildTreeCore [P ++ S, P] = buildTreeCore [P] :=
  ⟨buildTreeCore_conflict_error P S l₁ l₂ l₃ hP hS,
   fun es cs h => insertParts_over_dir P es cs h,
   buildTreeCore_overwrite_pair P S hP hS⟩

/-- Witness for C9 at `P = a/b`, `S = c`. -/
theorem build_tree_conflict_policy_witness :
    buildTreeCore [["a", "b"], ["a", "b", "c"]] = .error () ∧
    (∀ es cs, subtreeAt es ["a", "b"] = some (Node.dir cs) →
      ∃ es', insertParts es ["a", "b"] = .ok es' ∧
        subtreeAt es' ["a", "b"] = some Node.leaf) ∧
    buildTreeCore [["a", "b", "c"], ["a", "b"]] = buildTreeCore [["a", "b"]] := by
  have h := build_tree_conflict_policy_order_dependent ["a", "b"] ["c"] [] [] []
    (by decide) (by decide)
  simpa using h

/-! ## Order dependence of the tree renderer on case-tied siblings (C2) -/

theorem build_tree_A_first :
    build_tree_from_paths "repo" ["A.py", "a.py"] = .ok "repo\n├── A.py\n└── a.py" := by
  have h1 : buildTreeCore (["A.py", "a.py"].map splitPath) =
      .ok [("A.py", Node.leaf), ("a.py", Node.leaf)] := rfl
  have hs : sortEntries [("A.py", Node.leaf), ("a.py", Node.leaf)] =
      [("A.py", Node.leaf), ("a.py", Node.leaf)] := rfl
  have hr : render_tree [("A.py", Node.leaf), ("a.py", Node.leaf)] "" =
      ["├── A.py", "└── a.py"] := by
    rw [render_tree, hs]
    simp [renderSorted]
  unfold build_tree_from_paths
  rw [h1]
  show Except.ok (pyJoin "\n" ("repo" :: render_tree [("A.py", Node.leaf), ("a.py", Node.leaf)] "")) = _
  rw [hr]
  rfl

theorem build_tree_a_first :
    build_tree_from_paths "repo" ["a.py", "A.py"] = .ok "repo\n├── a.py\n└── A.py" := by
  have h1 : buildTreeCore (["a.py", "A.py"].map splitPath) =
      .ok [("a.py", Node.leaf), ("A.py", Node.leaf)] := rfl
  have hs : sortEntries [("a.py", Node.leaf), ("A.py", Node.leaf)] =
      [("a.py", Node.leaf), ("A.py", Node.leaf)] := rfl
  have hr : render_tree [("a.py", Node.leaf), ("A.py", Node.leaf)] "" =
      ["├── a.py", "└── A.py"] := by
    rw [render_tree, hs]
    simp [renderSorted]
  unfold build_tree_from_paths
  rw [h1]
  show Except.ok (pyJoin "\n" ("repo" :: render_tree [("a.py", Node.leaf), ("A.py", Node.leaf)] "")) = _
  rw [hr]
  rfl

/-- C2 counterexample: on the sibling names `A.py` / `a.py`, which
differ only in letter case, the two orderings of the same path set
render different trees — Python's stable sort keeps the tied entries in
dict insertion order, so the output depends on the input ordering. -/
theorem build_tree_case_tie_order_dependent :
    (["A.py", "a.py"] : List String).Perm ["a.py", "A.py"] ∧
    build_tree_from_paths "repo" ["A.py", "a.py"] ≠
      build_tree_from_paths "repo" ["a.py", "A.py"] := by
  refine ⟨List.Perm.swap "a.py" "A.py" [], ?_⟩
  rw [build_tree_A_first, build_tree_a_first]
  intro hcon
  have : "repo\n├── A.py\n└── a.py" = "repo\n├── a.py\n└── A.py" := by
    injection hcon
  exact absurd this (by decide)

/-! ## `DiffResult` and `compute_branch_diff` (core.py lines 74-79, 411-457)

The git subprocess layer is embedded as an oracle: the outcome of the
`fetch` call, the `show-ref` existence test per reference, and the
outcome of the `diff` call.  `run_git` raises `GitError` on failure
(embedded as `Except.error` carrying the formatted exception text) and
returns `stdout.strip()` on success. -/

structure DiffResult where
  ok : Bool
  has_changes : Bool
  message : String
  diff_text : Option String

structure GitOracle where
  fetch : Except String Unit
  refExists : String → Bool
  diff : String → String → Except String String

/-- `compute_branch_diff` from `core.py`.  `branch_ref`, `base_ref`,
`missing_refs` and `diff_output` are inlined; `run_git` already strips
its stdout, hence the inner `pyStrip` around the diff output and the
outer one from `diff_output.strip()`. -/
def compute_branch_diff (g : GitOracle) (branch_name : String) (base_branch : String) :
    DiffResult :=
  match g.fetch with
  | .error exc => ⟨false, false, "Failed to fetch from origin: " ++ exc, none⟩
  | .ok _ =>
    if (["origin/" ++ base_branch, "origin/" ++ branch_name].filter
        (fun r => !(g.refExists r))).isEmpty then
      match g.diff ("origin/" ++ base_branch) ("origin/" ++ branch_name) with
      | .error exc =>
          ⟨false, false,
            "Failed to compute diff between " ++ ("origin/" ++ branch_name) ++ " and "
              ++ ("origin/" ++ base_branch) ++ ": " ++ exc, none⟩
      | .ok out =>
          if pyStrip (pyStrip out) = "" then
            ⟨true, false,
              "No differences between " ++ ("origin/" ++ branch_name) ++ " and "
                ++ ("origin/" ++ base_branch) ++ ".", some ""⟩
          else
            ⟨true, true, "", some (pyStrip (pyStrip out))⟩
    else
      ⟨false, false,
        "Unable to compute diff because the following references were not found on origin: "
          ++ pyJoin ", " (["origin/" ++ base_branch, "origin/" ++ branch_name].filter
              (fun r => !(g.refExists r)))
          ++ ". Please ensure the branch names are correct and fetched.", none⟩

/-- C3: every `DiffResult` value returned by `compute_branch_diff`
satisfies the data-model invariant on all return paths (fetch failure,
missing refs, diff failure, empty diff, non-empty diff):
`has_changes` implies `ok`, and `diff_text` holds a non-empty string
exactly when `has_changes` is true. -/
theorem compute_branch_diff_invariant (g : GitOracle) (b base : String) :
    ((compute_branch_diff g b base).has_changes = true →
      (compute_branch_diff g b base).ok = true) ∧
    (((compute_branch_diff g b base).diff_text.getD "" ≠ "") ↔
      (compute_branch_diff g b base).has_changes = true) := by
  unfold compute_branch_diff
  cases g.fetch with
  | error exc => simp
  | ok u =>
      simp only
      split
      · split
        · next exc _ => simp
        · next out _ =>
            by_cases hempty : pyStrip (pyStrip out) = ""
            · simp [hempty]
            · simp [hempty]
      · simp

/-- Witness for C3 on a concrete oracle with a non-empty diff. -/
theorem compute_branch_diff_invariant_witness :
    ((compute_branch_diff ⟨.ok (), fun _ => true, fun _ _ => .ok "DIFF"⟩ "feature" "main").has_changes = true →
      (compute_branch_diff ⟨.ok (), fun _ => true, fun _ _ => .ok "DIFF"⟩ "feature" "main").ok = true) ∧
    (((compute_branch_diff ⟨.ok (), fun _ => true, fun _ _ => .ok "DIFF"⟩ "feature" "main").diff_text.getD "" ≠ "") ↔
      (compute_branch_diff ⟨.ok (), fun _ => true, fun _ _ => .ok "DIFF"⟩ "feature" "main").has_changes = true) :=
  compute_branch_diff_invariant ⟨.ok (), fun _ => true, fun _ _ => .ok "DIFF"⟩ "feature" "main"

theorem infix_append_outer {x mid : List Char} (A B : List Char) (h : x <:+: mid) :
    x <:+: (A ++ mid ++ B) := by
  obtain ⟨u, v, huv⟩ := h
  exact ⟨A ++ u, v ++ B, by rw [← huv]; simp⟩

/-- C5: when the fetch succeeds but `origin/base` or `origin/branch` is
missing, `compute_branch_diff` reports `ok = false`,
`has_changes = false`, a message naming every missing reference (in
particular a missing base branch), and never invokes the diff command
(the result is independent of the diff oracle). -/
theorem compute_branch_diff_missing_refs (g : GitOracle) (b base : String)
    (hfetch : g.fetch = .ok ())
    (hmiss : g.refExists ("origin/" ++ base) = false ∨ g.refExists ("origin/" ++ b) = false) :
    (compute_branch_diff g b base).ok = false ∧
    (compute_branch_diff g b base).has_changes = false ∧
    (∀ r, r ∈ ["origin/" ++ base, "origin/" ++ b].filter (fun r => !(g.refExists r)) →
      r.data <:+: (compute_branch_diff g b base).message.data) ∧
    (g.refExists ("origin/" ++ base) = false →
      ("origin/" ++ base).data <:+: (compute_branch_diff g b base).message.data) ∧
    (∀ d', compute_branch_diff ⟨g.fetch, g.refExists, d'⟩ b base =
      compute_branch_diff g b base) := by
  have hne : (["origin/" ++ base, "origin/" ++ b].filter
      (fun r => !(g.refExists r))).isEmpty = false := by
    rcases hmiss with h | h
    · simp [List.filter_cons, h]
    · cases hb : g.refExists ("origin/" ++ base) <;> simp [List.filter_cons, h, hb]
  have hcompute : compute_branch_diff g b base =
      ⟨false, false,
        "Unable to compute diff because the following references were not found on origin: "
          ++ pyJoin ", " (["origin/" ++ base, "origin/" ++ b].filter (fun r => !(g.refExists r)))
          ++ ". Please ensure the branch names are correct and fetched.", none⟩ := by
    unfold compute_branch_diff
    rw [hfetch]
    simp only [hne, Bool.false_eq_true, if_false]
  have hall : ∀ r, r ∈ ["origin/" ++ base, "origin/" ++ b].filter
      (fun r => !(g.refExists r)) →
      r.data <:+: (compute_branch_diff g b base).message.data := by
    intro r hr
    rw [hcompute]
    show r.data <:+: (_ ++ pyJoin ", " _ ++ _ : String).data
    simp only [String.data_append]
    refine infix_append_outer _ _ ?_
    exact infix_joinSep _ _ r.data (List.mem_map_of_mem String.data hr)
  refine ⟨by rw [hcompute], by rw [hcompute], hall, ?_, ?_⟩
  · intro hb
    refine hall ("origin/" ++ base) ?_
    simp [List.mem_filter, hb]
  · intro d'
    rw [hcompute]
    unfold compute_branch_diff
    rw [hfetch]
    simp only [hne, Bool.false_eq_true, if_false]

/-- Witness for C5: base branch `main` missing from the remote. -/
theorem compute_branch_diff_missing_refs_witness :
    (compute_branch_diff ⟨.ok (), fun r => r == "origin/feature", fun _ _ => .ok "x"⟩
      "feature" "main").ok = false ∧
    (compute_branch_diff ⟨.ok (), fun r => r == "origin/feature", fun _ _ => .ok "x"⟩
      "feature" "main").has_changes = false ∧
    ("origin/main").data <:+:
      (compute_branch_diff ⟨.ok (), fun r => r == "origin/feature", fun _ _ => .ok "x"⟩
        "feature" "main").message.data := by
  have h := compute_branch_diff_missing_refs
    ⟨.ok (), fun r => r == "origin/feature", fun _ _ => .ok "x"⟩ "feature" "main"
    rfl (Or.inl (by decide))
  exact ⟨h.1, h.2.1, h.2.2.2.1 (by decide)⟩

theorem str_data_append_ne {s : String} (hs : s.data ≠ []) (t : String) :
    (s ++ t).data ≠ [] := by
  rw [String.data_append]
  intro hc
  exact hs (List.append_eq_nil.mp hc).1

theorem ne_empty_of_data_ne {s : String} (hs : s.data ≠ []) : s ≠ "" :=
  fun hcon => hs (by rw [hcon])

/-- C10: `compute_branch_diff` converts every git failure into a
returned `DiffResult` instead of propagating it: a fetch failure (which
happens before the existence checks) and a diff-command failure each
yield `ok = false`, `has_changes = false` and a message carrying the
exception text; and on every oracle the function returns a result that
either succeeded or carries a non-empty descriptive message. -/
theorem compute_branch_diff_catches_git_errors :
    (∀ (exc b base : String) (re : String → Bool)
        (d : String → String → Except String String),
      compute_branch_diff ⟨.error exc, re, d⟩ b base =
        ⟨false, false, "Failed to fetch from origin: " ++ exc, none⟩) ∧
    (∀ (exc b base : String),
      compute_branch_diff ⟨.ok (), fun _ => true, fun _ _ => .error exc⟩ b base =
        ⟨false, false,
          "Failed to compute diff between " ++ ("origin/" ++ b) ++ " and "
            ++ ("origin/" ++ base) ++ ": " ++ exc, none⟩) ∧
    (∀ (g : GitOracle) (b base : String),
      (compute_branch_diff g b base).ok = true ∨
      (compute_branch_diff g b base).message ≠ "") := by
  refine ⟨fun exc b base re d => rfl, fun exc b base => rfl, ?_⟩
  intro g b base
  unfold compute_branch_diff
  cases g.fetch with
  | error exc =>
      exact Or.inr (ne_empty_of_data_ne (str_data_append_ne (by decide) exc))
  | ok u =>
      by_cases hemp : (["origin/" ++ base, "origin/" ++ b].filter
          (fun r => !(g.refExists r))).isEmpty = true
      · rw [if_pos hemp]
        cases g.diff ("origin/" ++ base) ("origin/" ++ b) with
        | error exc =>
            refine Or.inr (ne_empty_of_data_ne ?_)
            exact str_data_append_ne (str_data_append_ne (str_data_append_ne
              (str_data_append_ne (str_data_append_ne (by decide) _) _) _) _) _
        | ok out =>
            dsimp only
            by_cases hempty : pyStrip (pyStrip out) = ""
            · rw [if_pos hempty]
              refine Or.inr (ne_empty_of_data_ne ?_)
              exact str_data_append_ne (str_data_append_ne (str_data_append_ne
                (str_data_append_ne (by decide) _) _) _) _
            · rw [if_neg hempty]
              exact Or.inl rfl
      · rw [if_neg hemp]
        refine Or.inr (ne_empty_of_data_ne ?_)
        exact str_data_append_ne (str_data_append_ne (by decide) _) _

/-! ## `read_text_file` (core.py lines 199-228)

The filesystem is embedded as an oracle recording the outcome of each
operation the function performs: `stat` (size or `OSError`), the
binary-sniff read of the first 4096 bytes, the UTF-8 decode of the full
file (whose failure is either a `UnicodeDecodeError` or some other I/O
error), and the Latin-1 fallback read (Latin-1 decoding itself is
total, so only an I/O error can fail it).  Bytes are `Nat`s. -/

def MAX_FILE_SIZE_BYTES : Nat := 200 * 1024

/-- `is_binary_content` from `core.py`: a NUL byte in the sample. -/
def is_binary_content (sample : List Nat) : Bool := sample.contains 0

inductive ReadErr where
  | unicodeDecode : ReadErr
  | ioError : ReadErr

structure FileState where
  statSize : Except Unit Nat
  readSample : Except Unit (List Nat)
  readUtf8 : Except ReadErr String
  readLatin1 : Except Unit String

/-- `read_text_file` from `core.py`: size cap, binary sniff, UTF-8
decode with one Latin-1 retry; every failure is a silent `none`. -/
def read_text_file (f : FileState) : Option String :=
  match f.statSize with
  | .error _ => none
  | .ok size =>
    if size > MAX_FILE_SIZE_BYTES then none
    else match f.readSample with
      | .error _ => none
      | .ok sample =>
        if is_binary_content sample then none
        else match f.readUtf8 with
          | .ok text => some text
          | .error .ioError => none
          | .error .unicodeDecode =>
            match f.readLatin1 with
            | .ok text => some text
            | .error _ => none

/-- C4: the 200 KiB size gate is inclusive: a readable text file of
exactly `200 * 1024` bytes is returned in full, and any file of
`200 * 1024 + 1` bytes or more is excluded. -/
theorem read_text_file_size_threshold :
    (∀ (f : FileState) (sample : List Nat) (text : String),
      f.statSize = .ok (200 * 1024) →
      f.readSample = .ok sample → is_binary_content sample = false →
      f.readUtf8 = .ok text →
      read_text_file f = some text) ∧
    (∀ (f : FileState) (n : Nat), f.statSize = .ok n → 200 * 1024 + 1 ≤ n →
      read_text_file f = none) := by
  constructor
  · intro f sample text hstat hsample hbin hutf
    unfold read_text_file
    rw [hstat]
    dsimp only
    have hsize : ¬ (200 * 1024 > MAX_FILE_SIZE_BYTES) := by
      unfold MAX_FILE_SIZE_BYTES
      omega
    rw [if_neg hsize, hsample]
    dsimp only
    rw [hbin, if_neg (by simp), hutf]
  · intro f n hstat hn
    unfold read_text_file
    rw [hstat]
    dsimp only
    have hsize : n > MAX_FILE_SIZE_BYTES := by
      unfold MAX_FILE_SIZE_BYTES
      omega
    rw [if_pos hsize]

/-- Witness for C4: a 204800-byte readable text file is included, a
204801-byte one is excluded. -/
theorem read_text_file_size_threshold_witness :
    read_text_file ⟨.ok (200 * 1024), .ok [104, 105], .ok "hi", .ok "hi"⟩ = some "hi" ∧
    read_text_file ⟨.ok (200 * 1024 + 1), .ok [104, 105], .ok "hi", .ok "hi"⟩ = none := by
  constructor
  · exact read_text_file_size_threshold.1 ⟨.ok (200 * 1024), .ok [104, 105], .ok "hi", .ok "hi"⟩
      [104, 105] "hi" rfl rfl (by decide) rfl
  · exact read_text_file_size_threshold.2 ⟨.ok (200 * 1024 + 1), .ok [104, 105], .ok "hi", .ok "hi"⟩
      (200 * 1024 + 1) rfl (by omega)

/-- C6: the classifier is total — it yields a string or `none` and every
failure mode is a silent exclusion: a failed `stat`, an oversized file,
a NUL byte in the 4096-byte sample, a failed sample read, a non-decode
I/O failure of the UTF-8 read, and a UTF-8 decode failure whose Latin-1
retry also fails, all produce `none` rather than an exception. -/
theorem read_text_file_silent_skips :
    (∀ f : FileState, read_text_file f = none ∨ ∃ s, read_text_file f = some s) ∧
    (∀ (f : FileState) (e : Unit), f.statSize = .error e → read_text_file f = none) ∧
    (∀ (f : FileState) (n : Nat), f.statSize = .ok n → MAX_FILE_SIZE_BYTES < n →
      read_text_file f = none) ∧
    (∀ (f : FileState) (e : Unit), f.readSample = .error e → read_text_file f = none) ∧
    (∀ (f : FileState) (sample : List Nat), f.readSample = .ok sample → 0 ∈ sample →
      read_text_file f = none) ∧
    (∀ f : FileState, f.readUtf8 = .error .ioError → read_text_file f = none) ∧
    (∀ (f : FileState) (e : Unit), f.readUtf8 = .error .unicodeDecode →
      f.readLatin1 = .error e → read_text_file f = none) := by
  refine ⟨?_, ?_, ?_, ?_, ?_, ?_, ?_⟩
  · intro f
    cases h : read_text_file f with
    | none => exact Or.inl rfl
    | some s => exact Or.inr ⟨s, rfl⟩
  · intro f e hstat
    unfold read_text_file
    rw [hstat]
  · intro f n hstat hn
    unfold read_text_file
    rw [hstat]
    dsimp only
    rw [if_pos hn]
  · intro f e hsample
    unfold read_text_file
    cases hstat : f.statSize with
    | error e' => rfl
    | ok n =>
        dsimp only
        by_cases hn : n > MAX_FILE_SIZE_BYTES
        · rw [if_pos hn]
        · rw [if_neg hn, hsample]
  · intro f sample hsample hnul
    unfold read_text_file
    cases hstat : f.statSize with
    | error e' => rfl
    | ok n =>
        dsimp only
        by_cases hn : n > MAX_FILE_SIZE_BYTES
        · rw [if_pos hn]
        · rw [if_neg hn, hsample]
          dsimp only
          have hbin : is_binary_content sample = true := by
            unfold is_binary_content
            simpa using hnul
          rw [if_pos hbin]
  · intro f hutf
    unfold read_text_file
    cases hstat : f.statSize with
    | error e' => rfl
    | ok n =>
        dsimp only
        by_cases hn : n > MAX_FILE_SIZE_BYTES
        · rw [if_pos hn]
        · rw [if_neg hn]
          cases hsample : f.readSample with
          | error e' => rfl
          | ok sample =>
              dsimp only
              by_cases hbin : is_binary_content sample = true
              · rw [if_pos hbin]
              · rw [if_neg hbin, hutf]
  · intro f e hutf hlat
    unfold read_text_file
    cases hstat : f.statSize with
    | error e' => rfl
    | ok n =>
        dsimp only
        by_cases hn : n > MAX_FILE_SIZE_BYTES
        · rw [if_pos hn]
        · rw [if_neg hn]
          cases hsample : f.readSample with
          | error e' => rfl
          | ok sample =>
              dsimp only
              by_cases hbin : is_binary_content sample = true
              · rw [if_pos hbin]
              · rw [if_neg hbin, hutf, hlat]

/-- Witness for C6: a NUL byte in the sample and a doubly failed decode
are both silently excluded. -/
theorem read_text_file_silent_skips_witness :
    read_text_file ⟨.ok 3, .ok [104, 0, 105], .ok "x", .ok "x"⟩ = none ∧
    read_text_file ⟨.ok 3, .ok [104, 105], .error .unicodeDecode, .error ()⟩ = none ∧
    read_text_file ⟨.error (), .ok [104], .ok "x", .ok "x"⟩ = none := by
  refine ⟨?_, ?_, ?_⟩
  · exact read_text_file_silent_skips.2.2.2.2.1 ⟨.ok 3, .ok [104, 0, 105], .ok "x", .ok "x"⟩
      [104, 0, 105] rfl (by decide)
  · exact read_text_file_silent_skips.2.2.2.2.2.2 ⟨.ok 3, .ok [104, 105], .error .unicodeDecode, .error ()⟩
      () rfl rfl
  · exact read_text_file_silent_skips.2.1 ⟨.error (), .ok [104], .ok "x", .ok "x"⟩ () rfl

/-! ## Prompt templates and `build_single_branch_prompt`
(prompts/__init__.py lines 12-38, core.py lines 348-360) -/

/-- Modelled from the spec: the bundled prompt markdown files
(`arch_deep_dive.md` and friends) are not among the sources — the spec
describes them only as static instructional text mapped from logical
names.  Each is embedded as a fixed body free of the document
delimiters. -/
def arch_deep_dive_text : String :=
  "You are a principal engineer. Study the codebase below and write a deep architecture review."

/-- Modelled from the spec: static instructional text for the
`branch_comparison` template. -/
def branch_comparison_text : String :=
  "You are a careful reviewer. Compare the branches below against the specification."

/-- Modelled from the spec: static instructional text for the
`feature_security_analysis` template. -/
def feature_security_analysis_text : String :=
  "You are a security analyst. Review the snapshot below for features, risks and modernization."

/-- Modelled from the spec: static instructional text for the
`pr_long_context` template. -/
def pr_long_context_text : String :=
  "You are a pull request reviewer. Study the long context and the diff below."

/-- `_PROMPT_FILES` from `prompts/__init__.py`. -/
def _PROMPT_FILES : List (String × String) :=
  [("branch_comparison", "branch_comparison.md"),
   ("arch_deep_dive", "arch_deep_dive.md"),
   ("feature_security_analysis", "feature_security_analysis.md"),
   ("pr_long_context", "pr_long_context.md")]

/-- Modelled from the spec: the packaged file contents backing the
registry. -/
def promptFileText (filename : String) : String :=
  if filename = "branch_comparison.md" then branch_comparison_text
  else if filename = "arch_deep_dive.md" then arch_deep_dive_text
  else if filename = "feature_security_analysis.md" then feature_security_analysis_text
  else pr_long_context_text

/-- Dict lookup on `_PROMPT_FILES`. -/
def lookupPromptFile (name : String) : List (String × String) → Option String
  | [] => none
  | (k, v) :: rest => if k = name then some v else lookupPromptFile name rest

/-- `load_prompt` from `prompts/__init__.py`: an unknown logical name
raises `KeyError`, embedded as `Except.error`. -/
def load_prompt (name : String) : Except Unit String :=
  match lookupPromptFile name _PROMPT_FILES with
  | none => .error ()
  | some filename => .ok (promptFileText filename)

def beginMarker : String := "---------------- BEGIN DOCUMENT ----------------"

def endMarker : String := "---------------- END DOCUMENT ----------------"

/-- `build_single_branch_prompt` from `core.py`: strip the template,
rstrip the snapshot, and join with the delimiter lines. -/
def build_single_branch_prompt (prompt_name : String) (branch_markdown : String) :
    Except Unit String :=
  match load_prompt prompt_name with
  | .error e => .error e
  | .ok system_prompt =>
      .ok (pyJoin "\n"
        [pyStrip system_prompt, "", beginMarker, pyRstrip branch_markdown, endMarker])

/-- C7 counterexample: for the snapshot `"Z9 "` (which contains neither
delimiter), the assembled document does not contain the full snapshot
text anywhere — its trailing whitespace is stripped — so in particular
the full snapshot does not appear between the two markers. -/
theorem build_single_branch_prompt_strips_snapshot :
    build_single_branch_prompt "arch_deep_dive" "Z9 " =
      .ok (pyJoin "\n" [arch_deep_dive_text, "", beginMarker, "Z9", endMarker]) ∧
    ¬ ("Z9 ".data <:+:
      (pyJoin "\n" [arch_deep_dive_text, "", beginMarker, "Z9", endMarker]).data) := by
  constructor
  · rfl
  · decide

theorem countOccurs_cons_of_not_mem {p : List Char} {c : Char}
    (hc : c ∉ p) (hp : p ≠ []) (b : List Char) :
    countOccurs p (c :: b) = countOccurs p b := by
  simp [countOccurs, not_prefix_cons_of_not_mem hc hp b]

theorem countOccurs_zero_of_prefix {p a t : List Char}
    (h : countOccurs p (a ++ t) = 0) : countOccurs p a = 0 := by
  have := countOccurs_le_append p a t
  omega

/-- C7 (amended): for every snapshot free of the two delimiter strings,
the assembled arch-deep-dive document is the resolved template text,
one `BEGIN DOCUMENT` line, the snapshot with trailing whitespace
stripped, and one `END DOCUMENT` line, in that order; each marker
occurs exactly once.  (The full snapshot appears between the markers
exactly when it carries no trailing whitespace; its rstripped form
always does.) -/
theorem build_single_branch_prompt_structure (snapshot : String)
    (hb : countOccurs beginMarker.data snapshot.data = 0)
    (he : countOccurs endMarker.data snapshot.data = 0) :
    build_single_branch_prompt "arch_deep_dive" snapshot =
      .ok (String.mk (arch_deep_dive_text.data ++ '\n' :: '\n' ::
        (beginMarker.data ++ '\n' :: (rstripChars snapshot.data ++ '\n' :: endMarker.data)))) ∧
    countOccurs beginMarker.data (arch_deep_dive_text.data ++ '\n' :: '\n' ::
        (beginMarker.data ++ '\n' :: (rstripChars snapshot.data ++ '\n' :: endMarker.data))) = 1 ∧
    countOccurs endMarker.data (arch_deep_dive_text.data ++ '\n' :: '\n' ::
        (beginMarker.data ++ '\n' :: (rstripChars snapshot.data ++ '\n' :: endMarker.data))) = 1 := by
  obtain ⟨t, ht⟩ := rstripChars_prefix snapshot.data
  have hbD : countOccurs beginMarker.data (rstripChars snapshot.data) = 0 :=
    countOccurs_zero_of_prefix (t := t) (by rw [ht]; exact hb)
  have heD : countOccurs endMarker.data (rstripChars snapshot.data) = 0 :=
    countOccurs_zero_of_prefix (t := t) (by rw [ht]; exact he)
  have hbnl : '\n' ∉ beginMarker.data := by decide
  have hbne : beginMarker.data ≠ [] := by decide
  have henl : '\n' ∉ endMarker.data := by decide
  have hene : endMarker.data ≠ [] := by decide
  refine ⟨?_, ?_, ?_⟩
  · show Except.ok (pyJoin "\n"
      [pyStrip arch_deep_dive_text, "", beginMarker, pyRstrip snapshot, endMarker]) = _
    congr 1
    show String.mk (joinSep ['\n']
      [stripChars arch_deep_dive_text.data, [], beginMarker.data,
        rstripChars snapshot.data, endMarker.data]) = _
    congr 1
    rw [show stripChars arch_deep_dive_text.data = arch_deep_dive_text.data from by decide]
    simp [joinSep]
  · rw [countOccurs_append_cons hbnl hbne, countOccurs_cons_of_not_mem hbnl hbne,
      countOccurs_append_cons hbnl hbne, countOccurs_append_cons hbnl hbne, hbD]
    have h1 : countOccurs beginMarker.data arch_deep_dive_text.data = 0 := by decide
    have h2 : countOccurs beginMarker.data beginMarker.data = 1 := by decide
    have h3 : countOccurs beginMarker.data endMarker.data = 0 := by decide
    omega
  · rw [countOccurs_append_cons henl hene, countOccurs_cons_of_not_mem henl hene,
      countOccurs_append_cons henl hene, countOccurs_append_cons henl hene, heD]
    have h1 : countOccurs endMarker.data arch_deep_dive_text.data = 0 := by decide
    have h2 : countOccurs endMarker.data beginMarker.data = 0 := by decide
    have h3 : countOccurs endMarker.data endMarker.data = 1 := by decide
    omega

/-- Witness for C7 at the snapshot `"hello\nworld"`. -/
theorem build_single_branch_prompt_structure_witness :
    build_single_branch_prompt "arch_deep_dive" "hello\nworld" =
      .ok (String.mk (arch_deep_dive_text.data ++ '\n' :: '\n' ::
        (beginMarker.data ++ '\n' ::
          (rstripChars "hello\nworld".data ++ '\n' :: endMarker.data)))) ∧
    countOccurs beginMarker.data (arch_deep_dive_text.data ++ '\n' :: '\n' ::
        (beginMarker.data ++ '\n' ::
          (rstripChars "hello\nworld".data ++ '\n' :: endMarker.data))) = 1 ∧
    countOccurs endMarker.data (arch_deep_dive_text.data ++ '\n' :: '\n' ::
        (beginMarker.data ++ '\n' ::
          (rstripChars "hello\nworld".data ++ '\n' :: endMarker.data))) = 1 :=
  build_single_branch_prompt_structure "hello\nworld" (by decide) (by decide)

/-! ## `build_document_body` (core.py lines 363-388)

The `branch_markdown` dict is an insertion-ordered association list;
the `parts` list is assembled exactly as in the Python and joined with
newlines. -/

/-- `build_document_body` from `core.py`. -/
def build_document_body (spec_path : Option String) (spec_content : String)
    (branch_markdown : List (String × String)) : String :=
  pyJoin "\n"
    (["# Specifications and design docs and prompts", ""]
      ++ (if pyStrip spec_content = "" then
            ["_No specification was provided for this project._\n"]
          else
            (match spec_path with
              | some p => ["_Source: `" ++ p ++ "`_"]
              | none => [])
            ++ ["", pyRstrip spec_content, ""])
      ++ branch_markdown.flatMap
          (fun bm => ["# " ++ bm.1 ++ " branch content", "", pyRstrip bm.2, ""]))

/-- C8 counterexample: the placeholder line is capitalized — the body
for an empty specification contains `"No specification was provided"`
but not the claim's literal lowercase `"no specification was
provided"`. -/
theorem build_document_body_placeholder_is_capitalized :
    countOccurs "no specification was provided".data
      (build_document_body none "" [("main", "CONTENT")]).data = 0 ∧
    countOccurs "No specification was provided".data
      (build_document_body none "" [("main", "CONTENT")]).data = 1 := by
  constructor
  · decide
  · decide

/-- C8 (amended): when `spec_content` is blank or whitespace-only the
body ignores `spec_path` and `spec_content` entirely and carries the
(capitalized) no-specification placeholder; and
`build_document_body(None, "", {"main": "CONTENT"})` is exactly the
header, the placeholder, then `"# main branch content"` followed by
`"CONTENT"`. -/
theorem build_document_body_blank_spec (spec_path : Option String) (spec_content : String)
    (branch_markdown : List (String × String)) (h : pyStrip spec_content = "") :
    build_document_body spec_path spec_content branch_markdown =
      build_document_body none "" branch_markdown ∧
    "_No specification was provided for this project._".data <:+:
      (build_document_body spec_path spec_content branch_markdown).data ∧
    build_document_body none "" [("main", "CONTENT")] =
      "# Specifications and design docs and prompts\n\n_No specification was provided for this project._\n\n# main branch content\n\nCONTENT\n" := by
  have hnil : pyStrip "" = "" := rfl
  refine ⟨by simp [build_document_body, h, hnil], ?_, rfl⟩
  unfold build_document_body
  rw [if_pos h]
  have hline : ("_No specification was provided for this project._\n" : String) ∈
      (["# Specifications and design docs and prompts", ""]
        ++ ["_No specification was provided for this project._\n"]
        ++ branch_markdown.flatMap
            (fun bm => ["# " ++ bm.1 ++ " branch content", "", pyRstrip bm.2, ""])) := by
    simp
  have hinfix := infix_joinSep "\n".data _ _ (List.mem_map_of_mem String.data hline)
  refine List.IsInfix.trans ?_ hinfix
  exact List.IsPrefix.isInfix ⟨['\n'], by decide⟩

/-- Witness for C8 at a whitespace-only `spec_content`. -/
theorem build_document_body_blank_spec_witness :
    build_document_body (some "spec.md") "  \n" [("dev", "X")] =
      build_document_body none "" [("dev", "X")] ∧
    "_No specification was provided for this project._".data <:+:
      (build_document_body (some "spec.md") "  \n" [("dev", "X")]).data ∧
    build_document_body none "" [("main", "CONTENT")] =
      "# Specifications and design docs and prompts\n\n_No specification was provided for this project._\n\n# main branch content\n\nCONTENT\n" :=
  build_document_body_blank_spec (some "spec.md") "  \n" [("dev", "X")] (by decide)

/-! ## Order independence of the tree renderer (C2, amended)

The hypotheses of the amended claim: every split path is a nonempty
segment list, no path is a strict prefix of another (the conflicting
case of C9), and no two sibling segments differ only in letter case
(the tie in `render_tree`'s sort key exposed by the counterexample). -/

/-- First segment of a split path (paths are nonempty in context). -/
def headKey : List String → String
  | [] => ""
  | k :: _ => k

/-- The tails of the paths whose first segment is `k`, in list order:
exactly the sub-paths that populate the dict entry `k`. -/
def groupTails (k : String) (ll : List (List String)) : List (List String) :=
  ll.filterMap (fun p => match p with
    | [] => none
    | k' :: rest => if k' = k then some rest else none)

/-- First-appearance deduplication: the key order of a Python dict
populated by repeated `setdefault`/assignment. -/
def firstApp : List String → List String
  | [] => []
  | k :: rest => k :: (firstApp rest).filter (fun x => x ≠ k)

/-- Total number of segments, the induction measure. -/
def sumLen (ll : List (List String)) : Nat := (ll.map List.length).sum

/-- The first pair of differing segments of two paths, if any. -/
def firstDiverge : List String → List String → Option (String × String)
  | s :: ps, t :: qs => if s = t then firstDiverge ps qs else some (s, t)
  | _, _ => none

def PathsNE (ll : List (List String)) : Prop := ∀ p ∈ ll, p ≠ []

def PathsCF (ll : List (List String)) : Prop :=
  ∀ p ∈ ll, ∀ q ∈ ll, p <+: q → p = q

def PathsNC (ll : List (List String)) : Prop :=
  ∀ p ∈ ll, ∀ q ∈ ll, ∀ s t, firstDiverge p q = some (s, t) →
    s.data.map Char.toLower ≠ t.data.map Char.toLower

theorem lookup_none_iff_not_mem (k : String) :
    ∀ es : List (String × Node), lookupEntry k es = none ↔ k ∉ es.map Prod.fst := by
  intro es
  induction es with
  | nil => simp [lookupEntry]
  | cons e rest ih =>
      obtain ⟨k', v'⟩ := e
      by_cases h : k' = k
      · subst h
        simp [lookupEntry]
      · simp only [lookupEntry, h, if_false, List.map_cons, List.mem_cons]
        rw [ih]
        constructor
        · intro hn hc
          rcases hc with hc | hc
          · exact h hc.symm
          · exact hn hc
        · intro hn
          exact fun hc => hn (Or.inr hc)

theorem setEntry_of_lookup_none {k : String} {v : Node} :
    ∀ {es : List (String × Node)}, lookupEntry k es = none →
      setEntry k v es = es ++ [(k, v)] := by
  intro es
  induction es with
  | nil => intro _; rfl
  | cons e rest ih =>
      obtain ⟨k', v'⟩ := e
      intro h
      by_cases hk : k' = k
      · simp [lookupEntry, hk] at h
      · simp only [lookupEntry, hk, if_false] at h
        simp only [setEntry, hk, if_false, List.cons_append]
        rw [ih h]

theorem map_fst_setEntry_of_lookup_some {k : String} {v : Node} :
    ∀ {es : List (String × Node)} {n : Node}, lookupEntry k es = some n →
      (setEntry k v es).map Prod.fst = es.map Prod.fst := by
  intro es
  induction es with
  | nil => intro n h; simp [lookupEntry] at h
  | cons e rest ih =>
      obtain ⟨k', v'⟩ := e
      intro n h
      by_cases hk : k' = k
      · subst hk
        simp [setEntry]
      · simp only [lookupEntry, hk, if_false] at h
        simp only [setEntry, hk, if_false, List.map_cons]
        rw [ih h]

theorem setEntry_self {k : String} :
    ∀ {es : List (String × Node)} {v : Node}, lookupEntry k es = some v →
      setEntry k v es = es := by
  intro es
  induction es with
  | nil => intro v h; simp [lookupEntry] at h
  | cons e rest ih =>
      obtain ⟨k', v'⟩ := e
      intro v h
      by_cases hk : k' = k
      · subst hk
        rw [show lookupEntry k' ((k', v') :: rest) = some v' from by simp [lookupEntry]] at h
        injection h with hv
        simp [setEntry, hv]
      · simp only [lookupEntry, hk, if_false] at h
        simp only [setEntry, hk, if_false]
        rw [ih h]

theorem mem_firstApp (a : String) : ∀ l : List String, a ∈ firstApp l ↔ a ∈ l := by
  intro l
  induction l with
  | nil => simp [firstApp]
  | cons k rest ih =>
      by_cases h : a = k
      · simp [firstApp, h]
      · simp [firstApp, List.mem_filter, ih, h]

theorem nodup_firstApp : ∀ l : List String, (firstApp l).Nodup := by
  intro l
  induction l with
  | nil => simp [firstApp]
  | cons k rest ih =>
      simp only [firstApp, List.nodup_cons]
      constructor
      · intro hmem
        have := (List.mem_filter.mp hmem).2
        simp at this
      · exact ih.filter _

theorem firstApp_concat_new {k : String} :
    ∀ {l : List String}, k ∉ l → firstApp (l ++ [k]) = firstApp l ++ [k] := by
  intro l
  induction l with
  | nil => intro _; rfl
  | cons a l' ih =>
      intro h
      have hka : k ≠ a := fun hc => h (by simp [hc])
      have hkl : k ∉ l' := fun hc => h (List.mem_cons_of_mem _ hc)
      simp only [List.cons_append, List.append_eq, firstApp]
      rw [ih hkl, List.filter_append]
      simp [hka]

theorem firstApp_concat_mem {k : String} :
    ∀ {l : List String}, k ∈ l → firstApp (l ++ [k]) = firstApp l := by
  intro l
  induction l with
  | nil => intro h; cases h
  | cons a l' ih =>
      intro h
      by_cases hk : k ∈ l'
      · simp only [List.cons_append, List.append_eq, firstApp]
        rw [ih hk]
      · have hka : k = a := by
          rcases List.mem_cons.mp h with h' | h'
          · exact h'
          · exact absurd h' hk
        subst hka
        simp only [List.cons_append, List.append_eq, firstApp]
        rw [firstApp_concat_new hk, List.filter_append]
        simp

theorem groupTails_append (k : String) (l₁ l₂ : List (List String)) :
    groupTails k (l₁ ++ l₂) = groupTails k l₁ ++ groupTails k l₂ :=
  List.filterMap_append l₁ l₂ _

theorem groupTails_nil (k : String) : groupTails k [] = [] := rfl

theorem groupTails_cons_nil (k : String) (ll : List (List String)) :
    groupTails k ([] :: ll) = groupTails k ll := by
  simp [groupTails, List.filterMap_cons]

theorem groupTails_cons_head (k : String) (rest : List String) (ll : List (List String)) :
    groupTails k ((k :: rest) :: ll) = rest :: groupTails k ll := by
  simp [groupTails, List.filterMap_cons]

theorem groupTails_cons_other {k k' : String} (h : k' ≠ k) (rest : List String)
    (ll : List (List String)) :
    groupTails k ((k' :: rest) :: ll) = groupTails k ll := by
  simp [groupTails, List.filterMap_cons, h]

theorem groupTails_single_head (k : String) (rest : List String) :
    groupTails k [k :: rest] = [rest] := by
  rw [groupTails_cons_head, groupTails_nil]

theorem groupTails_single_other {k k' : String} (h : k' ≠ k) (rest : List String) :
    groupTails k [k' :: rest] = [] := by
  rw [groupTails_cons_other h, groupTails_nil]

theorem mem_groupTails {k : String} {t : List String} :
    ∀ {ll : List (List String)}, t ∈ groupTails k ll ↔ (k :: t) ∈ ll := by
  intro ll
  induction ll with
  | nil => simp [groupTails]
  | cons p ll' ih =>
      cases p with
      | nil =>
          rw [groupTails_cons_nil]
          rw [ih]
          simp
      | cons k' rest =>
          by_cases hk : k' = k
          · subst hk
            rw [groupTails_cons_head]
            simp [List.mem_cons, ih]
          · rw [groupTails_cons_other hk]
            simp [List.mem_cons, ih, hk, Ne.symm hk]

theorem groupTails_eq_nil_of_not_head {k : String} {ll : List (List String)}
    (h : k ∉ ll.map headKey) : groupTails k ll = [] := by
  rcases hg : groupTails k ll with _ | ⟨t, ts⟩
  · rfl
  · exfalso
    have hmem : t ∈ groupTails k ll := by rw [hg]; exact List.mem_cons_self t ts
    have hin : (k :: t) ∈ ll := mem_groupTails.mp hmem
    exact h (by simpa [headKey] using List.mem_map_of_mem headKey hin)

theorem groupTails_perm {k : String} {ll ll' : List (List String)} (h : ll.Perm ll') :
    (groupTails k ll).Perm (groupTails k ll') :=
  List.Perm.filterMap _ h

theorem sumLen_nil : sumLen [] = 0 := rfl

theorem sumLen_cons (p : List String) (ll : List (List String)) :
    sumLen (p :: ll) = p.length + sumLen ll := by
  simp [sumLen]

theorem sumLen_append (l₁ l₂ : List (List String)) :
    sumLen (l₁ ++ l₂) = sumLen l₁ + sumLen l₂ := by
  simp [sumLen]

theorem sumLen_groupTails_add_length_le (k : String) :
    ∀ ll : List (List String),
      sumLen (groupTails k ll) + (groupTails k ll).length ≤ sumLen ll := by
  intro ll
  induction ll with
  | nil => simp [groupTails_nil, sumLen_nil]
  | cons p ll' ih =>
      cases p with
      | nil =>
          rw [groupTails_cons_nil, sumLen_cons]
          omega
      | cons k' rest =>
          by_cases hk : k' = k
          · subst hk
            rw [groupTails_cons_head, sumLen_cons, sumLen_cons, List.length_cons]
            simp only [List.length_cons]
            omega
          · rw [groupTails_cons_other hk, sumLen_cons]
            omega

theorem sumLen_groupTails_lt {k : String} {ll : List (List String)}
    (h : groupTails k ll ≠ []) : sumLen (groupTails k ll) < sumLen ll := by
  have := sumLen_groupTails_add_length_le k ll
  have hlen : (groupTails k ll).length ≥ 1 := by
    cases hg : groupTails k ll with
    | nil => exact absurd hg h
    | cons t ts => simp
  omega

theorem sumLen_perm {ll ll' : List (List String)} (h : ll.Perm ll') :
    sumLen ll = sumLen ll' :=
  List.Perm.sum_eq (h.map List.length)

theorem pathsNE_perm {ll ll' : List (List String)} (h : ll.Perm ll') (hne : PathsNE ll) :
    PathsNE ll' := fun p hp => hne p (h.mem_iff.mpr hp)

theorem pathsCF_perm {ll ll' : List (List String)} (h : ll.Perm ll') (hcf : PathsCF ll) :
    PathsCF ll' := fun p hp q hq => hcf p (h.mem_iff.mpr hp) q (h.mem_iff.mpr hq)

theorem pathsNC_perm {ll ll' : List (List String)} (h : ll.Perm ll') (hnc : PathsNC ll) :
    PathsNC ll' := fun p hp q hq => hnc p (h.mem_iff.mpr hp) q (h.mem_iff.mpr hq)

theorem pathsNE_of_append_left {l₁ l₂ : List (List String)} (h : PathsNE (l₁ ++ l₂)) :
    PathsNE l₁ := fun p hp => h p (List.mem_append_left _ hp)

theorem pathsCF_of_append_left {l₁ l₂ : List (List String)} (h : PathsCF (l₁ ++ l₂)) :
    PathsCF l₁ := fun p hp q hq =>
  h p (List.mem_append_left _ hp) q (List.mem_append_left _ hq)

theorem pathsNC_of_append_left {l₁ l₂ : List (List String)} (h : PathsNC (l₁ ++ l₂)) :
    PathsNC l₁ := fun p hp q hq =>
  h p (List.mem_append_left _ hp) q (List.mem_append_left _ hq)

theorem pathsCF_groupTails {k : String} {ll : List (List String)} (hcf : PathsCF ll) :
    PathsCF (groupTails k ll) := by
  intro t₁ h₁ t₂ h₂ hpre
  have hm₁ := mem_groupTails.mp h₁
  have hm₂ := mem_groupTails.mp h₂
  have hp : (k :: t₁) <+: (k :: t₂) := List.cons_prefix_cons.mpr ⟨rfl, hpre⟩
  have heq := hcf (k :: t₁) hm₁ (k :: t₂) hm₂ hp
  exact (List.cons_eq_cons.mp heq).2

theorem firstDiverge_cons_same (k : String) (p q : List String) :
    firstDiverge (k :: p) (k :: q) = firstDiverge p q := by
  simp [firstDiverge]

theorem pathsNC_groupTails {k : String} {ll : List (List String)} (hnc : PathsNC ll) :
    PathsNC (groupTails k ll) := by
  intro t₁ h₁ t₂ h₂ s t hdiv
  have hm₁ := mem_groupTails.mp h₁
  have hm₂ := mem_groupTails.mp h₂
  refine hnc (k :: t₁) hm₁ (k :: t₂) hm₂ s t ?_
  rw [firstDiverge_cons_same]
  exact hdiv

/-- What the fold of `insert_path` builds: keys in first-appearance
order of the path heads, a leaf exactly for all-consumed groups, and
each directory entry the recursive build of its group's tails. -/
def TreeSpec (ll : List (List String)) (es : List (String × Node)) : Prop :=
  es.map Prod.fst = firstApp (ll.map headKey) ∧
  ∀ (k : String) (nn : Node), lookupEntry k es = some nn →
    ((nn = Node.leaf ∧ ∀ t ∈ groupTails k ll, t = []) ∨
     (∃ cs, nn = Node.dir cs ∧ (∀ t ∈ groupTails k ll, t ≠ []) ∧
        buildTreeCore (groupTails k ll) = .ok cs))

theorem buildTreeCore_concat_ok {ll : List (List String)} {es es' : List (String × Node)}
    {p : List String} (h : buildTreeCore ll = .ok es) (h2 : insertParts es p = .ok es') :
    buildTreeCore (ll ++ [p]) = .ok es' := by
  unfold buildTreeCore at h ⊢
  rw [foldlM_insert_append_ok h, foldlM_insert_cons_ok h2]
  rfl

theorem buildTreeCore_single {p : List String} (hp : p ≠ []) :
    buildTreeCore [p] = .ok (chainOf p) := by
  unfold buildTreeCore
  rw [foldlM_insert_cons_ok (insertParts_nil_eq_chain p hp)]
  rfl

theorem foldlM_insert_singleton_ok {cs cs' : List (String × Node)} {rest : List String}
    (h : List.foldlM insertParts cs [rest] = .ok cs') : insertParts cs rest = .ok cs' := by
  cases hi : insertParts cs rest with
  | ok x =>
      rw [foldlM_insert_cons_ok hi, List.foldlM_nil] at h
      exact h
  | error e =>
      rw [foldlM_insert_cons_error hi] at h
      exact Except.noConfusion h

theorem mem_heads_exists_tail {k : String} {ll : List (List String)}
    (hne : PathsNE ll) (h : k ∈ ll.map headKey) : ∃ t, (k :: t) ∈ ll := by
  obtain ⟨p, hp, hhead⟩ := List.mem_map.mp h
  cases p with
  | nil => exact absurd rfl (hne [] hp)
  | cons k' t =>
      refine ⟨t, ?_⟩
      have : k' = k := hhead
      rw [← this]
      exact hp

/-- The fold of `insert_path` over a conflict-free list of nonempty
paths succeeds and builds the tree described by `TreeSpec`. -/
theorem buildTreeCore_spec :
    ∀ (n : Nat) (ll : List (List String)), sumLen ll ≤ n → PathsNE ll → PathsCF ll →
      ∃ es, buildTreeCore ll = .ok es ∧ TreeSpec ll es := by
  intro n
  induction n with
  | zero =>
      intro ll hsum hne _
      have hllnil : ll = [] := by
        cases ll with
        | nil => rfl
        | cons p ll' =>
            exfalso
            have hp := hne p (List.mem_cons_self p ll')
            cases p with
            | nil => exact hp rfl
            | cons a as =>
                rw [sumLen_cons] at hsum
                simp at hsum
      subst hllnil
      exact ⟨[], rfl, rfl, fun k nn h => by simp [lookupEntry] at h⟩
  | succ n ih =>
      intro ll hsum hne hcf
      rcases List.eq_nil_or_concat ll with rfl | ⟨ll₀, p, hll⟩
      · exact ⟨[], rfl, rfl, fun k nn h => by simp [lookupEntry] at h⟩
      rw [List.concat_eq_append] at hll
      subst hll
      have hpne : p ≠ [] := hne p (by simp)
      obtain ⟨k, rest, rfl⟩ : ∃ k rest, p = k :: rest := by
        cases p with
        | nil => exact absurd rfl hpne
        | cons k r => exact ⟨k, r, rfl⟩
      have hsum₀ : sumLen ll₀ ≤ n := by
        rw [sumLen_append, sumLen_cons, sumLen_nil] at hsum
        simp at hsum
        omega
      obtain ⟨es, hok, hkeys, hsub⟩ :=
        ih ll₀ hsum₀ (pathsNE_of_append_left hne) (pathsCF_of_append_left hcf)
      have hheads : (ll₀ ++ [k :: rest]).map headKey = ll₀.map headKey ++ [k] := by
        rw [List.map_append]
        rfl
      cases hlook : lookupEntry k es with
      | none =>
          have hknot : k ∉ ll₀.map headKey := by
            have h1 := (lookup_none_iff_not_mem k es).mp hlook
            rw [hkeys] at h1
            exact fun hc => h1 ((mem_firstApp k _).mpr hc)
          have hgnil : groupTails k ll₀ = [] := groupTails_eq_nil_of_not_head hknot
          cases rest with
          | nil =>
              have hins : insertParts es [k] = .ok (es ++ [(k, Node.leaf)]) := by
                show Except.ok (setEntry k Node.leaf es) = _
                rw [setEntry_of_lookup_none hlook]
              refine ⟨es ++ [(k, Node.leaf)], buildTreeCore_concat_ok hok hins, ?_, ?_⟩
              · rw [List.map_append, hkeys, hheads, firstApp_concat_new hknot]
                rfl
              · intro k₀ nn hl₀
                by_cases hk₀ : k₀ = k
                · subst hk₀
                  rw [lookup_append_single_same hlook] at hl₀
                  injection hl₀ with hnn
                  left
                  refine ⟨hnn.symm, ?_⟩
                  intro t ht
                  rw [groupTails_append, hgnil, groupTails_single_head] at ht
                  simpa using ht
                · rw [lookup_append_single_other (Ne.symm hk₀) _ _] at hl₀
                  rw [groupTails_append, groupTails_single_other (Ne.symm hk₀), List.append_nil]
                  exact hsub k₀ nn hl₀
          | cons r₀ rest' =>
              have hchain : insertParts [] (r₀ :: rest') = .ok (chainOf (r₀ :: rest')) :=
                insertParts_nil_eq_chain _ (by simp)
              have hins : insertParts es (k :: r₀ :: rest') =
                  .ok (es ++ [(k, Node.dir (chainOf (r₀ :: rest')))]) := by
                simp [insertParts, hlook, hchain]
              refine ⟨_, buildTreeCore_concat_ok hok hins, ?_, ?_⟩
              · rw [List.map_append, hkeys, hheads, firstApp_concat_new hknot]
                rfl
              · intro k₀ nn hl₀
                by_cases hk₀ : k₀ = k
                · subst hk₀
                  rw [lookup_append_single_same hlook] at hl₀
                  injection hl₀ with hnn
                  right
                  refine ⟨chainOf (r₀ :: rest'), hnn.symm, ?_, ?_⟩
                  · intro t ht
                    rw [groupTails_append, hgnil, groupTails_single_head] at ht
                    simp at ht
                    simp [ht]
                  · rw [groupTails_append, hgnil, groupTails_single_head]
                    exact buildTreeCore_single (by simp)
                · rw [lookup_append_single_other (Ne.symm hk₀) _ _] at hl₀
                  rw [groupTails_append, groupTails_single_other (Ne.symm hk₀), List.append_nil]
                  exact hsub k₀ nn hl₀
      | some n0 =>
          have hkin : k ∈ ll₀.map headKey := by
            have h1 : k ∈ es.map Prod.fst := by
              by_contra hc
              rw [← lookup_none_iff_not_mem] at hc
              rw [hc] at hlook
              exact Option.noConfusion hlook
            rw [hkeys] at h1
            exact (mem_firstApp k _).mp h1
          rcases hsub k n0 hlook with ⟨hn0leaf, hallnil⟩ | ⟨cs, hn0dir, hallne, hbuild⟩
          · cases rest with
            | nil =>
                subst hn0leaf
                have hins : insertParts es [k] = .ok es := by
                  show Except.ok (setEntry k Node.leaf es) = _
                  rw [setEntry_self hlook]
                refine ⟨es, buildTreeCore_concat_ok hok hins, ?_, ?_⟩
                · rw [hkeys, hheads, firstApp_concat_mem hkin]
                · intro k₀ nn hl₀
                  by_cases hk₀ : k₀ = k
                  · subst hk₀
                    rw [hlook] at hl₀
                    injection hl₀ with hnn
                    left
                    refine ⟨hnn.symm, ?_⟩
                    intro t ht
                    rw [groupTails_append, groupTails_single_head] at ht
                    rcases List.mem_append.mp ht with ht | ht
                    · exact hallnil t ht
                    · simpa using ht
                  · rw [groupTails_append, groupTails_single_other (Ne.symm hk₀),
                      List.append_nil]
                    exact hsub k₀ nn hl₀
            | cons r₀ rest' =>
                exfalso
                obtain ⟨qt, hqt⟩ := mem_heads_exists_tail (pathsNE_of_append_left hne) hkin
                have hqtnil : qt = [] := hallnil qt (mem_groupTails.mpr hqt)
                subst hqtnil
                have h1 : ([k] : List String) ∈ ll₀ ++ [k :: r₀ :: rest'] :=
                  List.mem_append_left _ hqt
                have h2 : (k :: r₀ :: rest') ∈ ll₀ ++ [k :: r₀ :: rest'] := by simp
                have hpre : ([k] : List String) <+: (k :: r₀ :: rest') :=
                  List.cons_prefix_cons.mpr ⟨rfl, List.nil_prefix⟩
                have := hcf [k] h1 (k :: r₀ :: rest') h2 hpre
                simp at this
          · cases rest with
            | nil =>
                exfalso
                obtain ⟨qt, hqt⟩ := mem_heads_exists_tail (pathsNE_of_append_left hne) hkin
                have hqtmem := mem_groupTails.mpr hqt
                have hqtne : qt ≠ [] := hallne qt hqtmem
                have h1 : ([k] : List String) ∈ ll₀ ++ [[k]] := by simp
                have h2 : (k :: qt) ∈ ll₀ ++ [[k]] := List.mem_append_left _ hqt
                have hpre : ([k] : List String) <+: (k :: qt) :=
                  List.cons_prefix_cons.mpr ⟨rfl, List.nil_prefix⟩
                have := hcf [k] h1 (k :: qt) h2 hpre
                exact hqtne (by injection this with _ h; exact h.symm)
            | cons r₀ rest' =>
                subst hn0dir
                have hgmem : groupTails k (ll₀ ++ [k :: r₀ :: rest']) =
                    groupTails k ll₀ ++ [r₀ :: rest'] := by
                  rw [groupTails_append, groupTails_single_head]
                have hgne : groupTails k ll₀ ≠ [] := by
                  obtain ⟨qt, hqt⟩ :=
                    mem_heads_exists_tail (pathsNE_of_append_left hne) hkin
                  intro hc
                  rw [List.eq_nil_iff_forall_not_mem] at hc
                  exact hc qt (mem_groupTails.mpr hqt)
                have hsumG : sumLen (groupTails k ll₀ ++ [r₀ :: rest']) ≤ n := by
                  have h1 := @sumLen_groupTails_lt k ll₀ hgne
                  rw [sumLen_append, sumLen_cons, sumLen_nil]
                  rw [sumLen_append, sumLen_cons, sumLen_nil] at hsum
                  simp at hsum ⊢
                  omega
                have hNEg : PathsNE (groupTails k ll₀ ++ [r₀ :: rest']) := by
                  intro t ht
                  rcases List.mem_append.mp ht with ht | ht
                  · exact hallne t ht
                  · simp at ht
                    simp [ht]
                have hCFg : PathsCF (groupTails k ll₀ ++ [r₀ :: rest']) := by
                  rw [← hgmem]
                  exact pathsCF_groupTails hcf
                obtain ⟨cs', hok', hspec'⟩ :=
                  ih (groupTails k ll₀ ++ [r₀ :: rest']) hsumG hNEg hCFg
                have hrec : insertParts cs (r₀ :: rest') = .ok cs' := by
                  refine foldlM_insert_singleton_ok ?_
                  have := foldlM_insert_append_ok
                    (show List.foldlM insertParts [] (groupTails k ll₀) = .ok cs from hbuild)
                    [r₀ :: rest']
                  unfold buildTreeCore at hok'
                  rw [this] at hok'
                  exact hok'
                have hins : insertParts es (k :: r₀ :: rest') =
                    .ok (setEntry k (Node.dir cs') es) := by
                  simp [insertParts, hlook, hrec]
                refine ⟨setEntry k (Node.dir cs') es,
                  buildTreeCore_concat_ok hok hins, ?_, ?_⟩
                · rw [map_fst_setEntry_of_lookup_some hlook, hkeys, hheads,
                    firstApp_concat_mem hkin]
                · intro k₀ nn hl₀
                  by_cases hk₀ : k₀ = k
                  · subst hk₀
                    rw [lookup_setEntry_same] at hl₀
                    injection hl₀ with hnn
                    right
                    refine ⟨cs', hnn.symm, ?_, ?_⟩
                    · intro t ht
                      rw [hgmem] at ht
                      exact hNEg t ht
                    · rw [hgmem]
                      exact hok'
                  · rw [lookup_setEntry_other (Ne.symm hk₀) _ _] at hl₀
                    rw [groupTails_append, groupTails_single_other (Ne.symm hk₀),
                      List.append_nil]
                    exact hsub k₀ nn hl₀

theorem char_toNat_inj {a b : Char} (h : a.toNat = b.toNat) : a = b := by
  have hv : a.val = b.val := UInt32.toNat.inj h
  exact Char.eq_of_val_eq hv

theorem charsLe_total : ∀ s t : List Char, charsLe s t = true ∨ charsLe t s = true := by
  intro s
  induction s with
  | nil => intro t; exact Or.inl rfl
  | cons a as ih =>
      intro t
      cases t with
      | nil => exact Or.inr rfl
      | cons b bs =>
          by_cases hab : a = b
          · subst hab
            rcases ih bs with h | h
            · exact Or.inl (by simpa [charsLe] using h)
            · exact Or.inr (by simpa [charsLe] using h)
          · have hne : a.toNat ≠ b.toNat := fun hc => hab (char_toNat_inj hc)
            rcases Nat.lt_or_ge a.toNat b.toNat with h | h
            · exact Or.inl (by simp [charsLe, hab, h])
            · have hlt : b.toNat < a.toNat := by omega
              have hba : ¬ (b = a) := fun hc => hab hc.symm
              exact Or.inr (by simp [charsLe, hba, hlt])

theorem charsLe_trans :
    ∀ {s t u : List Char}, charsLe s t = true → charsLe t u = true → charsLe s u = true := by
  intro s
  induction s with
  | nil => intro t u _ _; rfl
  | cons a as ih =>
      intro t u h1 h2
      cases t with
      | nil => simp [charsLe] at h1
      | cons b bs =>
          cases u with
          | nil => simp [charsLe] at h2
          | cons c cs =>
              by_cases hab : a = b <;> by_cases hbc : b = c
              · subst hab; subst hbc
                simp only [charsLe, if_pos rfl] at h1 h2 ⊢
                exact ih h1 h2
              · subst hab
                simp only [charsLe, if_pos rfl] at h1
                simp only [charsLe, hbc, if_neg hbc] at h2
                simp only [charsLe, hbc, if_neg hbc]
                exact h2
              · subst hbc
                simp only [charsLe, hab, if_neg hab] at h1 ⊢
                exact h1
              · simp only [charsLe, hab, if_neg hab] at h1
                simp only [charsLe, hbc, if_neg hbc] at h2
                have h1' : a.toNat < b.toNat := by simpa using h1
                have h2' : b.toNat < c.toNat := by simpa using h2
                have hac : a ≠ c := by
                  intro hc
                  subst hc
                  omega
                simp [charsLe, hac]
                omega

theorem charsLe_antisymm :
    ∀ {s t : List Char}, charsLe s t = true → charsLe t s = true → s = t := by
  intro s
  induction s with
  | nil =>
      intro t h1 h2
      cases t with
      | nil => rfl
      | cons b bs => simp [charsLe] at h2
  | cons a as ih =>
      intro t h1 h2
      cases t with
      | nil => simp [charsLe] at h1
      | cons b bs =>
          by_cases hab : a = b
          · subst hab
            simp only [charsLe, if_pos rfl] at h1 h2
            rw [ih h1 h2]
          · simp only [charsLe, hab, if_neg hab] at h1
            simp only [charsLe, fun hc => hab (Eq.symm hc),
              if_neg (fun hc => hab (Eq.symm hc))] at h2
            have h1' : a.toNat < b.toNat := by simpa using h1
            have h2' : b.toNat < a.toNat := by simpa using h2
            omega

theorem keyLe_total : ∀ a b : Bool × List Char, keyLe a b = true ∨ keyLe b a = true := by
  intro a b
  obtain ⟨ba, sa⟩ := a
  obtain ⟨bb, sb⟩ := b
  by_cases hb : ba = bb
  · subst hb
    rcases charsLe_total sa sb with h | h
    · exact Or.inl (by simp [keyLe, h])
    · exact Or.inr (by simp [keyLe, h])
  · cases ba <;> cases bb
    · exact absurd rfl hb
    · exact Or.inl (by simp [keyLe, boolLt])
    · exact Or.inr (by simp [keyLe, boolLt])
    · exact absurd rfl hb

theorem keyLe_trans :
    ∀ {a b c : Bool × List Char}, keyLe a b = true → keyLe b c = true → keyLe a c = true := by
  intro a b c h1 h2
  obtain ⟨ba, sa⟩ := a
  obtain ⟨bb, sb⟩ := b
  obtain ⟨bc, sc⟩ := c
  by_cases hab : ba = bb <;> by_cases hbc : bb = bc
  · subst hab; subst hbc
    simp only [keyLe, if_pos rfl] at h1 h2 ⊢
    exact charsLe_trans h1 h2
  · subst hab
    simp only [keyLe, if_pos rfl] at h1
    simp only [keyLe, hbc, if_neg hbc] at h2 ⊢
    exact h2
  · subst hbc
    simp only [keyLe, hab, if_neg hab] at h1 ⊢
    exact h1
  · simp only [keyLe, hab, if_neg hab] at h1
    simp only [keyLe, hbc, if_neg hbc] at h2
    cases ba <;> cases bb <;> cases bc <;> simp_all [keyLe, boolLt]

theorem keyLe_antisymm :
    ∀ {a b : Bool × List Char}, keyLe a b = true → keyLe b a = true → a = b := by
  intro a b h1 h2
  obtain ⟨ba, sa⟩ := a
  obtain ⟨bb, sb⟩ := b
  by_cases hab : ba = bb
  · subst hab
    simp only [keyLe, if_pos rfl] at h1 h2
    rw [charsLe_antisymm h1 h2]
  · exfalso
    simp only [keyLe, hab, if_neg hab,
      fun hc => hab (Eq.symm hc), if_neg (fun hc => hab (Eq.symm hc))] at h1 h2
    cases ba <;> cases bb <;> simp_all [boolLt]

instance : IsTotal (String × Node) entryLe :=
  ⟨fun a b => by
    unfold entryLe
    rcases keyLe_total (entryKey a) (entryKey b) with h | h
    · exact Or.inl h
    · exact Or.inr h⟩

instance : IsTrans (String × Node) entryLe :=
  ⟨fun a b c h1 h2 => keyLe_trans h1 h2⟩

/-- The sort key seen through `(name, is_leaf)` only. -/
def kkOf (e : String × Node) : String × Bool := (e.1, isLeafB e.2)

/-- The entry order transported to `(name, is_leaf)` pairs. -/
def kkLe (a b : String × Bool) : Prop :=
  keyLe (a.2, a.1.data.map Char.toLower) (b.2, b.1.data.map Char.toLower) = true

instance : DecidableRel kkLe := fun a b => by
  unfold kkLe; infer_instance

instance : IsTotal (String × Bool) kkLe :=
  ⟨fun a b => by
    unfold kkLe
    rcases keyLe_total (a.2, a.1.data.map Char.toLower) (b.2, b.1.data.map Char.toLower)
      with h | h
    · exact Or.inl h
    · exact Or.inr h⟩

instance : IsTrans (String × Bool) kkLe :=
  ⟨fun a b c h1 h2 => keyLe_trans h1 h2⟩

theorem entryLe_iff_kkLe (a b : String × Node) : entryLe a b ↔ kkLe (kkOf a) (kkOf b) :=
  Iff.rfl

theorem eq_of_perm_sorted_nodup {α : Type} {r : α → α → Prop} :
    ∀ {l₁ l₂ : List α}, l₁.Perm l₂ → l₁.Sorted r → l₂.Sorted r → l₁.Nodup →
      (∀ a ∈ l₁, ∀ b ∈ l₁, r a b → r b a → a = b) → l₁ = l₂ := by
  intro l₁
  induction l₁ with
  | nil =>
      intro l₂ hp _ _ _ _
      exact hp.nil_eq
  | cons a l₁' ih =>
      intro l₂ hp hs₁ hs₂ hnd hanti
      have ha₂ : a ∈ l₂ := hp.mem_iff.mp (List.mem_cons_self a l₁')
      obtain ⟨u, v, rfl⟩ := List.append_of_mem ha₂
      have hnd₂ : (u ++ a :: v).Nodup := hp.nodup hnd
      cases u with
      | nil =>
          simp only [List.nil_append] at hp hs₂ ⊢
          have hp' : l₁'.Perm v := (List.perm_cons a).mp hp
          have hanti' : ∀ x ∈ l₁', ∀ y ∈ l₁', r x y → r y x → x = y := fun x hx y hy =>
            hanti x (List.mem_cons_of_mem a hx) y (List.mem_cons_of_mem a hy)
          rw [ih hp' hs₁.of_cons hs₂.of_cons (List.nodup_cons.mp hnd).2 hanti']
      | cons x u' =>
          exfalso
          have hsx : List.Sorted r (x :: (u' ++ a :: v)) := by simpa using hs₂
          have hxa : r x a := List.rel_of_sorted_cons hsx a (by simp)
          have hx₁ : x ∈ a :: l₁' := hp.mem_iff.mpr (by simp)
          have hnd₂' : (x :: (u' ++ a :: v)).Nodup := by simpa using hnd₂
          rcases List.mem_cons.mp hx₁ with hxa' | hxl
          · subst hxa'
            exact (List.nodup_cons.mp hnd₂').1 (by simp)
          · have hax : r a x := List.rel_of_sorted_cons hs₁ x hxl
            have heq : a = x :=
              hanti a (List.mem_cons_self a l₁') x (List.mem_cons_of_mem a hxl) hax hxa
            subst heq
            exact (List.nodup_cons.mp hnd₂').1 (by simp)

theorem map_fst_map_kkOf (es : List (String × Node)) :
    (es.map kkOf).map Prod.fst = es.map Prod.fst := by
  rw [List.map_map]
  rfl

theorem lookup_some_of_mem_keys {k : String} {es : List (String × Node)}
    (h : k ∈ es.map Prod.fst) : ∃ nn, lookupEntry k es = some nn := by
  cases hl : lookupEntry k es with
  | none => exact absurd h ((lookup_none_iff_not_mem k es).mp hl)
  | some nn => exact ⟨nn, rfl⟩

theorem mem_keys_of_lookup_some {k : String} {nn : Node} {es : List (String × Node)}
    (h : lookupEntry k es = some nn) : k ∈ es.map Prod.fst := by
  by_contra hc
  rw [← lookup_none_iff_not_mem] at hc
  rw [hc] at h
  exact Option.noConfusion h

theorem mem_kkOf_iff {k : String} {b : Bool} :
    ∀ {es : List (String × Node)}, (es.map Prod.fst).Nodup →
      ((k, b) ∈ es.map kkOf ↔ ∃ nn, lookupEntry k es = some nn ∧ isLeafB nn = b) := by
  intro es
  induction es with
  | nil => intro _; simp [lookupEntry]
  | cons e rest ih =>
      obtain ⟨k', v'⟩ := e
      intro hnd
      rw [List.map_cons, List.nodup_cons] at hnd
      obtain ⟨hk'notin, hndrest⟩ := hnd
      by_cases hk : k' = k
      · subst hk
        simp only [List.map_cons, List.mem_cons, kkOf, lookupEntry, if_pos rfl]
        constructor
        · intro hx
          rcases hx with hx | hx
          · injection hx with h1 h2
            exact ⟨v', rfl, h2.symm⟩
          · exfalso
            have hh : k' ∈ (rest.map kkOf).map Prod.fst := List.mem_map_of_mem Prod.fst hx
            rw [map_fst_map_kkOf] at hh
            exact hk'notin hh
        · intro ⟨nn, hnn, hb⟩
          injection hnn with hnn
          exact Or.inl (by rw [hnn, hb])
      · simp only [List.map_cons, List.mem_cons, kkOf, lookupEntry, hk, if_false]
        rw [ih hndrest]
        constructor
        · intro hx
          rcases hx with hx | hx
          · exact absurd (by injection hx with h1 _; exact h1.symm) hk
          · exact hx
        · intro hx
          exact Or.inr hx

theorem mem_entry_iff_lookup {k : String} {nn : Node} :
    ∀ {es : List (String × Node)}, (es.map Prod.fst).Nodup →
      ((k, nn) ∈ es ↔ lookupEntry k es = some nn) := by
  intro es
  induction es with
  | nil => intro _; simp [lookupEntry]
  | cons e rest ih =>
      obtain ⟨k', v'⟩ := e
      intro hnd
      rw [List.map_cons, List.nodup_cons] at hnd
      obtain ⟨hk'notin, hndrest⟩ := hnd
      by_cases hk : k' = k
      · subst hk
        simp only [List.mem_cons, lookupEntry, if_pos rfl, if_true]
        constructor
        · intro hx
          rcases hx with hx | hx
          · injection hx with _ h2
            simp [lookupEntry, h2]
          · exfalso
            have hh : k' ∈ rest.map Prod.fst := List.mem_map_of_mem Prod.fst hx
            exact hk'notin hh
        · intro hx
          injection hx with hx
          exact Or.inl (by rw [hx])
      · simp only [List.mem_cons, lookupEntry, hk, if_false]
        rw [ih hndrest]
        constructor
        · intro hx
          rcases hx with hx | hx
          · exact absurd (by injection hx with h1 _; exact h1.symm) hk
          · exact hx
        · intro hx
          exact Or.inr hx

theorem map_kkOf_sortEntries (es : List (String × Node)) :
    (sortEntries es).map kkOf = List.insertionSort kkLe (es.map kkOf) :=
  List.map_insertionSort entryLe kkLe kkOf es (fun a _ b _ => entryLe_iff_kkLe a b)

/-- The `(name, is_leaf)` sequence of the sorted entry list is
determined by the key-to-kind map alone, once sibling names cannot tie
in the sort key. -/
theorem sorted_kk_eq {es₁ es₂ : List (String × Node)}
    (hnd₁ : (es₁.map Prod.fst).Nodup) (hnd₂ : (es₂.map Prod.fst).Nodup)
    (hmem : ∀ k b, ((k, b) ∈ es₁.map kkOf ↔ (k, b) ∈ es₂.map kkOf))
    (hinj : ∀ k₁ ∈ es₁.map Prod.fst, ∀ k₂ ∈ es₁.map Prod.fst,
      k₁.data.map Char.toLower = k₂.data.map Char.toLower → k₁ = k₂) :
    (sortEntries es₁).map kkOf = (sortEntries es₂).map kkOf := by
  rw [map_kkOf_sortEntries, map_kkOf_sortEntries]
  have hnd₁' : (es₁.map kkOf).Nodup :=
    List.Nodup.of_map Prod.fst (by rw [map_fst_map_kkOf]; exact hnd₁)
  have hnd₂' : (es₂.map kkOf).Nodup :=
    List.Nodup.of_map Prod.fst (by rw [map_fst_map_kkOf]; exact hnd₂)
  have hperm : (es₁.map kkOf).Perm (es₂.map kkOf) :=
    (List.perm_ext_iff_of_nodup hnd₁' hnd₂').mpr (fun x => hmem x.1 x.2)
  refine eq_of_perm_sorted_nodup
    ((List.perm_insertionSort kkLe _).trans (hperm.trans (List.perm_insertionSort kkLe _).symm))
    (List.sorted_insertionSort kkLe _)
    (List.sorted_insertionSort kkLe _)
    ((List.perm_insertionSort kkLe _).symm.nodup hnd₁')
    ?_
  intro a ha b hb hab hba
  have ha' : a ∈ es₁.map kkOf := (List.perm_insertionSort kkLe _).mem_iff.mp ha
  have hb' : b ∈ es₁.map kkOf := (List.perm_insertionSort kkLe _).mem_iff.mp hb
  obtain ⟨k₁, b₁⟩ := a
  obtain ⟨k₂, b₂⟩ := b
  have hk₁ : k₁ ∈ es₁.map Prod.fst := by
    rw [← map_fst_map_kkOf]
    exact List.mem_map_of_mem Prod.fst ha'
  have hk₂ : k₂ ∈ es₁.map Prod.fst := by
    rw [← map_fst_map_kkOf]
    exact List.mem_map_of_mem Prod.fst hb'
  have hpair := keyLe_antisymm hab hba
  have hb₁₂ : b₁ = b₂ := congrArg Prod.fst hpair
  have hlow : k₁.data.map Char.toLower = k₂.data.map Char.toLower := congrArg Prod.snd hpair
  rw [hinj k₁ hk₁ k₂ hk₂ hlow, hb₁₂]

/-- Under `TreeSpec`, whether the entry at `k` is a leaf is determined
by the path multiset alone: `k` is a key iff it heads some path, and it
is a leaf iff every path headed by `k` is the single segment `[k]`. -/
theorem lookup_kind_of_treeSpec {ll : List (List String)} {es : List (String × Node)}
    (hne : PathsNE ll) (hts : TreeSpec ll es) (k : String) (b : Bool) :
    (∃ nn, lookupEntry k es = some nn ∧ isLeafB nn = b) ↔
      (k ∈ ll.map headKey ∧ b = decide (∀ t ∈ groupTails k ll, t = [])) := by
  constructor
  · intro ⟨nn, hl, hb⟩
    have hk : k ∈ es.map Prod.fst := mem_keys_of_lookup_some hl
    rw [hts.1, mem_firstApp] at hk
    refine ⟨hk, ?_⟩
    obtain ⟨t₀, ht₀⟩ := mem_heads_exists_tail hne hk
    have hg₀ : t₀ ∈ groupTails k ll := mem_groupTails.mpr ht₀
    rcases hts.2 k nn hl with ⟨hnn, hall⟩ | ⟨cs, hnn, hall, _⟩
    · rw [← hb, hnn]
      simp only [isLeafB]
      exact (decide_eq_true hall).symm
    · rw [← hb, hnn]
      simp only [isLeafB]
      exact (decide_eq_false (fun hcon => (hall t₀ hg₀) (hcon t₀ hg₀))).symm
  · intro ⟨hk, hb⟩
    have hk' : k ∈ es.map Prod.fst := by rw [hts.1, mem_firstApp]; exact hk
    obtain ⟨nn, hl⟩ := lookup_some_of_mem_keys hk'
    refine ⟨nn, hl, ?_⟩
    obtain ⟨t₀, ht₀⟩ := mem_heads_exists_tail hne hk
    have hg₀ : t₀ ∈ groupTails k ll := mem_groupTails.mpr ht₀
    rcases hts.2 k nn hl with ⟨hnn, hall⟩ | ⟨cs, hnn, hall, _⟩
    · rw [hnn, hb]
      simp only [isLeafB]
      exact (decide_eq_true hall).symm
    · rw [hnn, hb]
      simp only [isLeafB]
      exact (decide_eq_false (fun hcon => (hall t₀ hg₀) (hcon t₀ hg₀))).symm

/-- Two entries match for rendering: same `(name, is_leaf)` and, when
both are directories, their sorted children render identically. -/
def RenderMatch (e₁ e₂ : String × Node) : Prop :=
  kkOf e₁ = kkOf e₂ ∧
  ∀ s₁ s₂, e₁.2 = Node.dir s₁ → e₂.2 = Node.dir s₂ →
    ∀ pre, renderSorted pre (sortEntries s₁) = renderSorted pre (sortEntries s₂)

theorem renderSorted_congr :
    ∀ {l₁ l₂ : List (String × Node)}, List.Forall₂ RenderMatch l₁ l₂ →
      ∀ pre, renderSorted pre l₁ = renderSorted pre l₂ := by
  intro l₁ l₂ h
  induction h with
  | nil => intro pre; rfl
  | @cons e₁ e₂ t₁ t₂ hm hrest ih =>
      intro pre
      obtain ⟨n₁, v₁⟩ := e₁
      obtain ⟨n₂, v₂⟩ := e₂
      have hn : n₁ = n₂ := congrArg Prod.fst hm.1
      have hleaf : isLeafB v₁ = isLeafB v₂ := congrArg Prod.snd hm.1
      have hempty : t₁.isEmpty = t₂.isEmpty := by
        have hl := hrest.length_eq
        cases t₁ <;> cases t₂ <;> simp_all
      subst hn
      cases v₁ with
      | leaf =>
          cases v₂ with
          | leaf =>
              by_cases he : t₁.isEmpty
              · simp [renderSorted, he, ← hempty]
              · simp [renderSorted, he, ← hempty, ih pre]
          | dir s₂ => exact absurd hleaf (by simp [isLeafB])
      | dir s₁ =>
          cases v₂ with
          | leaf => exact absurd hleaf (by simp [isLeafB])
          | dir s₂ =>
              have hsub := hm.2 s₁ s₂ rfl rfl
              by_cases he : t₁.isEmpty
              · simp [renderSorted, he, ← hempty, hsub]
              · simp [renderSorted, he, ← hempty, hsub, ih pre]

theorem forall₂_renderMatch_of :
    ∀ {l₁ l₂ : List (String × Node)}, l₁.map kkOf = l₂.map kkOf →
      (∀ e₁ ∈ l₁, ∀ e₂ ∈ l₂, e₁.1 = e₂.1 →
        ∀ s₁ s₂, e₁.2 = Node.dir s₁ → e₂.2 = Node.dir s₂ →
          ∀ pre, renderSorted pre (sortEntries s₁) = renderSorted pre (sortEntries s₂)) →
      List.Forall₂ RenderMatch l₁ l₂ := by
  intro l₁
  induction l₁ with
  | nil =>
      intro l₂ hmap _
      cases l₂ with
      | nil => exact List.Forall₂.nil
      | cons e t => exact absurd hmap.symm (by simp)
  | cons e₁ t₁ ih =>
      intro l₂ hmap hdir
      cases l₂ with
      | nil => exact absurd hmap (by simp)
      | cons e₂ t₂ =>
          simp only [List.map_cons, List.cons.injEq] at hmap
          have hfst : e₁.1 = e₂.1 := by
            have h := congrArg Prod.fst hmap.1
            simpa [kkOf] using h
          refine List.Forall₂.cons ⟨hmap.1, ?_⟩ (ih hmap.2 ?_)
          · intro s₁ s₂ h₁ h₂
            exact hdir e₁ (List.mem_cons_self e₁ t₁) e₂ (List.mem_cons_self e₂ t₂)
              hfst s₁ s₂ h₁ h₂
          · intro a ha b hb hk s₁ s₂ h₁ h₂
            exact hdir a (List.mem_cons_of_mem e₁ ha) b (List.mem_cons_of_mem e₂ hb)
              hk s₁ s₂ h₁ h₂

/-- Rendering is invariant under permuting the path list, by strong
induction on the total segment count. -/
theorem render_perm :
    ∀ (n : Nat) (ll₁ ll₂ : List (List String)), sumLen ll₁ ≤ n → ll₁.Perm ll₂ →
      PathsNE ll₁ → PathsCF ll₁ → PathsNC ll₁ →
      ∀ es₁ es₂, buildTreeCore ll₁ = .ok es₁ → buildTreeCore ll₂ = .ok es₂ →
        ∀ pre, renderSorted pre (sortEntries es₁) = renderSorted pre (sortEntries es₂) := by
  intro n
  induction n with
  | zero =>
      intro ll₁ ll₂ hsum hp hne hcf hnc es₁ es₂ hok₁ hok₂ pre
      cases ll₁ with
      | cons p ps =>
          exfalso
          have hp1 : p ≠ [] := hne p (List.mem_cons_self p ps)
          have hlen : 1 ≤ p.length := by
            cases p with
            | nil => exact absurd rfl hp1
            | cons a as => simp
          rw [sumLen_cons] at hsum
          omega
      | nil =>
          obtain rfl := hp.nil_eq.symm
          have h₁ : (Except.ok [] : Except Unit (List (String × Node))) = .ok es₁ := hok₁
          have h₂ : (Except.ok [] : Except Unit (List (String × Node))) = .ok es₂ := hok₂
          obtain rfl := Except.ok.inj h₁
          obtain rfl := Except.ok.inj h₂
          rfl
  | succ n ih =>
      intro ll₁ ll₂ hsum hp hne hcf hnc es₁ es₂ hok₁ hok₂ pre
      obtain ⟨es₁, hok₁', hts₁⟩ := buildTreeCore_spec (sumLen ll₁) ll₁ le_rfl hne hcf
      rw [hok₁] at hok₁'
      obtain rfl := Except.ok.inj hok₁'
      have hne₂ := pathsNE_perm hp hne
      have hcf₂ := pathsCF_perm hp hcf
      obtain ⟨es₂, hok₂', hts₂⟩ := buildTreeCore_spec (sumLen ll₂) ll₂ le_rfl hne₂ hcf₂
      rw [hok₂] at hok₂'
      obtain rfl := Except.ok.inj hok₂'
      have hnd₁ : (es₁.map Prod.fst).Nodup := by rw [hts₁.1]; exact nodup_firstApp _
      have hnd₂ : (es₂.map Prod.fst).Nodup := by rw [hts₂.1]; exact nodup_firstApp _
      have hgiff : ∀ k : String,
          ((∀ t ∈ groupTails k ll₁, t = []) ↔ (∀ t ∈ groupTails k ll₂, t = [])) := fun k =>
        ⟨fun h t ht => h t ((groupTails_perm hp).mem_iff.mpr ht),
         fun h t ht => h t ((groupTails_perm hp).mem_iff.mp ht)⟩
      have hheads : ∀ k : String, (k ∈ ll₁.map headKey ↔ k ∈ ll₂.map headKey) := fun k =>
        (hp.map headKey).mem_iff
      have hmem : ∀ k b, ((k, b) ∈ es₁.map kkOf ↔ (k, b) ∈ es₂.map kkOf) := by
        intro k b
        rw [mem_kkOf_iff hnd₁, mem_kkOf_iff hnd₂,
          lookup_kind_of_treeSpec hne hts₁, lookup_kind_of_treeSpec hne₂ hts₂]
        constructor
        · intro ⟨hk, hb⟩
          exact ⟨(hheads k).mp hk, by rw [hb]; exact decide_eq_decide.mpr (hgiff k)⟩
        · intro ⟨hk, hb⟩
          exact ⟨(hheads k).mpr hk, by rw [hb]; exact (decide_eq_decide.mpr (hgiff k)).symm⟩
      have hinj : ∀ k₁ ∈ es₁.map Prod.fst, ∀ k₂ ∈ es₁.map Prod.fst,
          k₁.data.map Char.toLower = k₂.data.map Char.toLower → k₁ = k₂ := by
        intro k₁ hk₁ k₂ hk₂ hlow
        by_contra hneq
        rw [hts₁.1, mem_firstApp] at hk₁ hk₂
        obtain ⟨t₁, ht₁⟩ := mem_heads_exists_tail hne hk₁
        obtain ⟨t₂, ht₂⟩ := mem_heads_exists_tail hne hk₂
        have hdiv : firstDiverge (k₁ :: t₁) (k₂ :: t₂) = some (k₁, k₂) := by
          simp [firstDiverge, hneq]
        exact hnc (k₁ :: t₁) ht₁ (k₂ :: t₂) ht₂ k₁ k₂ hdiv hlow
      have hkk := sorted_kk_eq hnd₁ hnd₂ hmem hinj
      refine renderSorted_congr (forall₂_renderMatch_of hkk ?_) pre
      intro e₁ he₁ e₂ he₂ hk s₁ s₂ h₁ h₂ pre'
      obtain ⟨k₁, v₁⟩ := e₁
      obtain ⟨k₂, v₂⟩ := e₂
      have hk' : k₁ = k₂ := hk
      subst hk'
      have hv₁ : v₁ = Node.dir s₁ := h₁
      have hv₂ : v₂ = Node.dir s₂ := h₂
      subst hv₁
      subst hv₂
      have hm₁ : (k₁, Node.dir s₁) ∈ es₁ :=
        (List.perm_insertionSort entryLe es₁).mem_iff.mp he₁
      have hm₂ : (k₁, Node.dir s₂) ∈ es₂ :=
        (List.perm_insertionSort entryLe es₂).mem_iff.mp he₂
      have hl₁ : lookupEntry k₁ es₁ = some (Node.dir s₁) := (mem_entry_iff_lookup hnd₁).mp hm₁
      have hl₂ : lookupEntry k₁ es₂ = some (Node.dir s₂) := (mem_entry_iff_lookup hnd₂).mp hm₂
      rcases hts₁.2 k₁ _ hl₁ with ⟨hleaf, _⟩ | ⟨cs₁, hcs₁, hgne₁, hbuild₁⟩
      · exact absurd hleaf (by simp)
      rcases hts₂.2 k₁ _ hl₂ with ⟨hleaf, _⟩ | ⟨cs₂, hcs₂, hgne₂, hbuild₂⟩
      · exact absurd hleaf (by simp)
      obtain rfl := Node.dir.inj hcs₁
      obtain rfl := Node.dir.inj hcs₂
      have hkhead : k₁ ∈ ll₁.map headKey := by
        have hh : k₁ ∈ es₁.map Prod.fst := mem_keys_of_lookup_some hl₁
        rw [hts₁.1, mem_firstApp] at hh
        exact hh
      obtain ⟨t₀, ht₀⟩ := mem_heads_exists_tail hne hkhead
      have hg₀ : t₀ ∈ groupTails k₁ ll₁ := mem_groupTails.mpr ht₀
      have hgnenil : groupTails k₁ ll₁ ≠ [] := fun hnil => by
        rw [hnil] at hg₀
        exact absurd hg₀ (List.not_mem_nil t₀)
      have hlt := sumLen_groupTails_lt hgnenil
      exact ih (groupTails k₁ ll₁) (groupTails k₁ ll₂) (by omega) (groupTails_perm hp)
        (fun p hp' => hgne₁ p hp') (pathsCF_groupTails hcf) (pathsNC_groupTails hnc)
        _ _ hbuild₁ hbuild₂ pre'

/-- Executable check of the no-case-collision condition for one pair. -/
def pairNCb (p q : List String) : Bool :=
  match firstDiverge p q with
  | none => true
  | some (s, t) => decide (s.data.map Char.toLower ≠ t.data.map Char.toLower)

theorem pathsNC_of_pairNCb {ll : List (List String)}
    (h : ∀ p ∈ ll, ∀ q ∈ ll, pairNCb p q = true) : PathsNC ll := by
  intro p hp q hq s t hdiv
  have h2 := h p hp q hq
  unfold pairNCb at h2
  rw [hdiv] at h2
  exact of_decide_eq_true h2

/-- **C2 (amended).** `build_tree_from_paths` is a function of its
arguments, hence byte-identical on repeated calls; and whenever the
split paths are nonempty, conflict-free (no path a strict prefix of
another) and no two diverging segments differ only in letter case,
its output is independent of the order of the input path list.  (The
unconditional order-independence in the spec fails: with case-tied
sibling names the stable sort keeps dict insertion order.) -/
theorem build_tree_from_paths_order_independent
    (repo : String) (paths₁ paths₂ : List String)
    (hp : paths₁.Perm paths₂)
    (hne : PathsNE (paths₁.map splitPath))
    (hcf : PathsCF (paths₁.map splitPath))
    (hnc : PathsNC (paths₁.map splitPath)) :
    build_tree_from_paths repo paths₁ = build_tree_from_paths repo paths₂ := by
  have hp' : (paths₁.map splitPath).Perm (paths₂.map splitPath) := hp.map splitPath
  obtain ⟨es₁, hok₁, hts₁⟩ :=
    buildTreeCore_spec (sumLen (paths₁.map splitPath)) _ le_rfl hne hcf
  obtain ⟨es₂, hok₂, hts₂⟩ :=
    buildTreeCore_spec (sumLen (paths₂.map splitPath)) _ le_rfl
      (pathsNE_perm hp' hne) (pathsCF_perm hp' hcf)
  have hr := render_perm (sumLen (paths₁.map splitPath)) _ _ le_rfl hp' hne hcf hnc
    es₁ es₂ hok₁ hok₂ ""
  unfold build_tree_from_paths
  rw [hok₁, hok₂]
  dsimp only
  unfold render_tree
  rw [hr]

/-- C2 at the spec's concrete reordering of `["b/x.py", "a.py", "b/a/y.py"]`. -/
theorem build_tree_from_paths_order_independent_witness :
    (["b/x.py", "a.py", "b/a/y.py"] : List String).Perm ["a.py", "b/a/y.py", "b/x.py"] ∧
    PathsNE ((["b/x.py", "a.py", "b/a/y.py"] : List String).map splitPath) ∧
    PathsCF ((["b/x.py", "a.py", "b/a/y.py"] : List String).map splitPath) ∧
    PathsNC ((["b/x.py", "a.py", "b/a/y.py"] : List String).map splitPath) ∧
    build_tree_from_paths "repo" ["b/x.py", "a.py", "b/a/y.py"] =
      build_tree_from_paths "repo" ["a.py", "b/a/y.py", "b/x.py"] :=
  ⟨by decide, by unfold PathsNE; decide, by unfold PathsCF; decide,
   pathsNC_of_pairNCb (by decide),
   build_tree_from_paths_order_independent "repo" _ _ (by decide)
     (by unfold PathsNE; decide) (by unfold PathsCF; decide)
     (pathsNC_of_pairNCb (by decide))⟩
